import Mathlib

/-!
Verification of the nonogram constraint-propagation solver.

The TypeScript sources are embedded shallowly: numbers are `Int` (cell
values) or `Nat` (indices, lengths), arrays are `List`s, the mutable
board is threaded explicitly, and the generator loop is a fueled step
function.  JavaScript runtime failures (reading a property of
`undefined`) are modelled as an explicit `typeError` outcome, since the
`solve` wrapper catches only `SolveError` and lets anything else escape.
-/

/-- `RuleEntry` from types.ts: one colored run of a clue. -/
structure RuleEntry where
  count : Nat
  val : Int
deriving DecidableEq, Repr

/-- `Rule` from types.ts: the clue for one line. -/
abbrev Rule : Type := List RuleEntry

/-- `Rules` from types.ts: the clues for the whole board. -/
structure Rules where
  column : List Rule
  row : List Rule
deriving DecidableEq

/-- `Move` from types.ts: tile (x, y) is set to color `next`. -/
structure Move where
  x : Nat
  y : Nat
  next : Int
deriving DecidableEq, Repr

/-- `Board` from types.ts: 2D list of cell values. -/
abbrev Board : Type := List (List Int)

/-- `Solution` from types.ts: result of a solve attempt. -/
structure Solution where
  board : Board
  solved : Bool
  unsolvedRows : List Nat
  unsolvedColumns : List Nat
deriving DecidableEq

/-- The data carried by the `SolveError` class. -/
structure SolveErr where
  message : String
  unsolvedRows : List Nat
  unsolvedColumns : List Nat
deriving DecidableEq

/-- `count` from utils.ts: `Array.from(new Array(n), (_, i) => map(i))`. -/
def count {α : Type} (n : Nat) (map : Nat → α) : List α :=
  (List.range n).map map

/-- `choose` from utils.ts: combinations of `pick` ascending indices in
`[start, max)`.  `max` and `start` are kept as `Int` because the caller
can pass a negative slot total when a clue does not fit its line. -/
def choose (max : Int) : Nat → Int → List (List Int)
  | 0, _ => []
  | 1, start => count (max - start).toNat (fun i => [start + i])
  | pick + 2, start =>
    (count (max - 1 - start).toNat (fun j => start + j)).flatMap
      (fun i => (choose max (pick + 1) (i + 1)).map (fun sub => i :: sub))

/-- A line-candidate cell list. -/
abbrev Line : Type := List Int

/-- An entry of `taggedRule` in `generateLineSolns`. -/
structure TaggedEntry where
  count : Nat
  val : Int
  same : Bool
deriving DecidableEq, Repr

/-- `isSameColorAsPrevious` from the solver: `rule[i-1]?.val === rule[i].val`. -/
def isSameColorAsPrevious (rule : Rule) (i : Nat) : Bool :=
  match i with
  | 0 => false
  | j + 1 =>
    match (rule).get? j, (rule).get? (j + 1) with
    | some p, some c => p.val == c.val
    | _, _ => false

/-- `generateLineSolns`: all candidate colorings of a line of length
`lineLength` under clue `rule`. -/
def generateLineSolns (lineLength : Nat) (rule : Rule) : List Line :=
  let entries : List RuleEntry := rule
  if entries.length = 0 then [count lineLength (fun _ => (-1 : Int))]
  else
    let nGroups := entries.length
    let taggedRule := entries.enum.map
      (fun p => TaggedEntry.mk p.2.count p.2.val (isSameColorAsPrevious rule p.1))
    let mandatorySpaces := (taggedRule.filter (fun r => r.same)).length
    let sumOfColoredSpaces : Int := entries.foldl (fun a r => a + (r.count : Int)) 0
    let freeSpaces : Int := (lineLength : Int) - mandatorySpaces - sumOfColoredSpaces
    let totalSlots : Int := freeSpaces + nGroups
    let arrangements := choose totalSlots nGroups 0
    arrangements.map (fun a =>
      let slots : List (Option TaggedEntry) :=
        a.enum.foldl (fun s p => s.set p.2.toNat (taggedRule.get? p.1))
          (count totalSlots.toNat (fun _ => none))
      slots.flatMap (fun slot =>
        match slot with
        | none => [(-1 : Int)]
        | some t => (if t.same then [(-1 : Int)] else []) ++ count t.count (fun _ => t.val)))

/-- `generateEmptyBoardFor` from the solver (note: the outer dimension is
`rules.column.length`, exactly as in the source). -/
def generateEmptyBoardFor (rules : Rules) : Board :=
  count rules.column.length (fun _ => count rules.row.length (fun _ => (0 : Int)))

/-- `findValidMoves`: positions (restricted to `indices`) where every
candidate line agrees; `lines[0].length` on an empty candidate list is a
JavaScript `TypeError`, modelled as `none`. -/
def findValidMoves (lines : List Line) (indices : List Nat)
    (solnMapper : Nat → Int → Move) : Option (List Move) :=
  match lines with
  | [] => none
  | l0 :: rest =>
    let len := l0.length
    some ((List.range len).filterMap (fun i =>
      if indices.contains i then
        if (l0 :: rest).all (fun n => n.get? i == l0.get? i) then
          some (solnMapper i (l0.getD i 0))
        else none
      else none))

/-- `findMovesFromCol`. -/
def findMovesFromCol (y : Nat) (unsolvedX : List Nat) (lines : List Line) :
    Option (List Move) :=
  findValidMoves lines unsolvedX (fun x next => Move.mk x y next)

/-- `findMovesFromRow`. -/
def findMovesFromRow (x : Nat) (unsolvedY : List Nat) (lines : List Line) :
    Option (List Move) :=
  findValidMoves lines unsolvedY (fun y next => Move.mk x y next)

/-- `isLineConflict`. -/
def isLineConflict (solns : List Line) : Bool := solns.length == 0

/-- `isLineSolved`. -/
def isLineSolved (solns : List Line) : Bool := solns.length == 1

/-- `movesForCol`: moves whose tile.y equals the given column. -/
def movesForCol (y : Nat) (moves : List Move) : List Move :=
  moves.filter (fun move => move.y == y)

/-- `movesForRow`: moves whose tile.x equals the given row. -/
def movesForRow (x : Nat) (moves : List Move) : List Move :=
  moves.filter (fun move => move.x == x)

/-- `pruneByMoves`, generic over the dimension projection: keep the
candidates agreeing with every move at the projected index. -/
def pruneByMoves (dim : Move → Nat) (solns : List Line) (moves : List Move) :
    List Line × Nat :=
  let newSolns := solns.filter (fun soln =>
    moves.all (fun m => soln.get? (dim m) == some m.next))
  (newSolns, solns.length - newSolns.length)

/-- `pruneColByMoves` (projects tile.x). -/
def pruneColByMoves (solns : List Line) (moves : List Move) : List Line × Nat :=
  pruneByMoves (fun m => m.x) solns moves

/-- `pruneRowByMoves` (projects tile.y). -/
def pruneRowByMoves (solns : List Line) (moves : List Move) : List Line × Nat :=
  pruneByMoves (fun m => m.y) solns moves

/-- `getPossibleColors`: the values the candidates take at index `i`
(`soln[i]` may be out of range, i.e. `undefined`, hence `Option Int`). -/
def getPossibleColors (solns : List Line) (i : Nat) : List (Option Int) :=
  solns.map (fun soln => soln.get? i)

/-- `Set.prototype.intersection` restricted to what the solver uses:
membership of the intersection of two color sets. -/
def setIntersection (a b : List (Option Int)) : List (Option Int) :=
  a.filter (fun c => b.contains c)

/-- `pruneByColors`: keep candidates whose value at `i` is an allowed color. -/
def pruneByColors (solns : List Line) (allowedColors : List (Option Int)) (i : Nat) :
    List Line × Nat :=
  let filteredSolns := solns.filter (fun soln =>
    allowedColors.contains (soln.get? i))
  (filteredSolns, solns.length - filteredSolns.length)

/-- One entry of the per-dimension solution map: a line index with its
surviving candidate set. -/
structure LineState where
  idx : Nat
  solns : List Line
deriving DecidableEq

/-- The loop state of `generateMoves`. -/
structure GenState where
  rowMap : List LineState
  colMap : List LineState
  unsolvedRowCount : Nat
  unsolvedColCount : Nat
  board : Board
deriving DecidableEq

/-- Concatenate the per-line `findValidMoves` results; `none` propagates
the `TypeError` raised for an empty candidate list. -/
def collectMoves (f : LineState → Option (List Move)) :
    List LineState → Option (List Move)
  | [] => some []
  | e :: rest =>
    match f e with
    | none => none
    | some ms =>
      match collectMoves f rest with
      | none => none
      | some tail => some (ms ++ tail)

/-- The yield phase: apply each move whose board cell currently reads 0,
recording the applied (yielded) moves in order.  Reading a missing board
row is a `TypeError` (flag `true`); a missing cell inside an existing row
reads `undefined`, which is `!== 0`, so the move is skipped. -/
def applyMovesGo : List Move → Board → List Move → List Move × Board × Bool
  | [], b, acc => (acc.reverse, b, false)
  | m :: rest, b, acc =>
    match b.get? m.x with
    | none => (acc.reverse, b, true)
    | some row =>
      match row.get? m.y with
      | none => applyMovesGo rest b acc
      | some v =>
        if v == 0 then applyMovesGo rest (b.set m.x (row.set m.y m.next)) (m :: acc)
        else applyMovesGo rest b acc

/-- The retire/conflict/prune pass over one dimension's snapshot.
Returns the surviving entries, the number retired, and the pruned count
(a retire also increments the pruned count, as in the source); a conflict
raises `SolveError` built from the keys still present at that moment. -/
def processLines (pruneFn : Nat → List Line → List Line × Nat)
    (mkErr : Nat → List Nat → SolveErr) :
    List LineState → List LineState → Nat → Nat →
    Except SolveErr (List LineState × Nat × Nat)
  | [], kept, retired, pruned => .ok (kept.reverse, retired, pruned)
  | e :: rest, kept, retired, pruned =>
    if isLineSolved e.solns then
      processLines pruneFn mkErr rest kept (retired + 1) (pruned + 1)
    else if isLineConflict e.solns then
      .error (mkErr e.idx ((kept.reverse ++ e :: rest).map (fun s => s.idx)))
    else
      let pr := pruneFn e.idx e.solns
      processLines pruneFn mkErr rest (LineState.mk e.idx pr.1 :: kept) retired (pruned + pr.2)

/-- Replace the candidate set stored at index `i`. -/
def updateSolns (m : List LineState) (i : Nat) (s : List Line) : List LineState :=
  m.map (fun e => if e.idx == i then LineState.mk e.idx s else e)

/-- One intersection of the mutual arc-consistency pass; `none` models the
`TypeError` of looking up an index absent from a map. -/
def arcCell (x y : Nat) (rowMap colMap : List LineState) (pruned : Nat) :
    Option (List LineState × List LineState × Nat) :=
  match colMap.find? (fun e => e.idx == y), rowMap.find? (fun e => e.idx == x) with
  | some ce, some re =>
    let colColors := getPossibleColors ce.solns x
    let rowColors := getPossibleColors re.solns y
    let combined := setIntersection colColors rowColors
    let colPr := pruneByColors ce.solns combined x
    let rowPr := pruneByColors re.solns combined y
    some (updateSolns rowMap x rowPr.1, updateSolns colMap y colPr.1,
      pruned + colPr.2 + rowPr.2)
  | _, _ => none

/-- The inner (column) loop of the arc-consistency pass. -/
def arcRow (x : Nat) : List Nat → List LineState × List LineState × Nat →
    Option (List LineState × List LineState × Nat)
  | [], st => some st
  | y :: ys, st =>
    match arcCell x y st.1 st.2.1 st.2.2 with
    | none => none
    | some st' => arcRow x ys st'

/-- The outer (row) loop of the arc-consistency pass. -/
def arcAll : List Nat → List Nat → List LineState × List LineState × Nat →
    Option (List LineState × List LineState × Nat)
  | [], _, st => some st
  | x :: xs, ys, st =>
    match arcRow x ys st with
    | none => none
    | some st' => arcAll xs ys st'

/-- Outcome of one iteration of the `while` body of `generateMoves`. -/
inductive RoundOut where
  | next (s : GenState) (yielded : List Move)
  | fail (yielded : List Move) (board : Board) (e : SolveErr)
  | crash (yielded : List Move) (board : Board)
deriving DecidableEq

/-- One iteration of the `while` body of `generateMoves`. -/
def roundStep (s : GenState) : RoundOut :=
  let unsolvedRowIdxs := s.rowMap.map (fun e => e.idx)
  let unsolvedColIdxs := s.colMap.map (fun e => e.idx)
  match collectMoves (fun e => findMovesFromRow e.idx unsolvedColIdxs e.solns) s.rowMap with
  | none => .crash [] s.board
  | some rowMoves =>
    match collectMoves (fun e => findMovesFromCol e.idx unsolvedRowIdxs e.solns) s.colMap with
    | none => .crash [] s.board
    | some colMoves =>
      let ap := applyMovesGo (rowMoves ++ colMoves) s.board []
      if ap.2.2 then .crash ap.1 ap.2.1
      else
        let board1 := ap.2.1
        match processLines (fun i solns => pruneRowByMoves solns (movesForRow i colMoves))
            (fun i selfKeys =>
              SolveErr.mk ("Row " ++ toString i ++ " has no solutions") selfKeys unsolvedColIdxs)
            s.rowMap [] 0 0 with
        | .error e => .fail ap.1 board1 e
        | .ok (newRows, rowRetired, pruned1) =>
          match processLines (fun i solns => pruneColByMoves solns (movesForCol i rowMoves))
              (fun i selfKeys =>
                SolveErr.mk ("Column " ++ toString i ++ " has no solutions")
                  (newRows.map (fun e => e.idx)) selfKeys)
              s.colMap [] 0 0 with
          | .error e => .fail ap.1 board1 e
          | .ok (newCols, colRetired, pruned2) =>
            let prunedCount := pruned1 + pruned2
            let s1 : GenState := GenState.mk newRows newCols
              (s.unsolvedRowCount - rowRetired) (s.unsolvedColCount - colRetired) board1
            if prunedCount > 0 then .next s1 ap.1
            else
              match arcAll unsolvedRowIdxs unsolvedColIdxs (newRows, newCols, 0) with
              | none => .crash ap.1 board1
              | some (rm2, cm2, arcPruned) =>
                if arcPruned == 0 then
                  .fail ap.1 board1 (SolveErr.mk "Ran out of moves"
                    (rm2.map (fun e => e.idx)) (cm2.map (fun e => e.idx)))
                else .next (GenState.mk rm2 cm2 s1.unsolvedRowCount s1.unsolvedColCount board1) ap.1

/-- Outcome of a complete (fueled) run of the `generateMoves` loop. -/
inductive RunResult where
  | finished (moves : List Move) (board : Board)
  | failed (moves : List Move) (board : Board) (e : SolveErr)
  | crashed (moves : List Move) (board : Board)
  | outOfFuel (moves : List Move) (board : Board)
deriving DecidableEq

/-- The `while (unsolvedRowCount && unsolvedColCount)` loop, fueled. -/
def runLoop : Nat → GenState → List Move → RunResult
  | 0, s, acc => .outOfFuel acc s.board
  | fuel + 1, s, acc =>
    if s.unsolvedRowCount == 0 || s.unsolvedColCount == 0 then .finished acc s.board
    else
      match roundStep s with
      | .next s' ys => runLoop fuel s' (acc ++ ys)
      | .fail ys b e => .failed (acc ++ ys) b e
      | .crash ys b => .crashed (acc ++ ys) b

/-- The loop state built at the top of `generateMoves`. -/
def initState (rules : Rules) (board : Board) : GenState :=
  let width := rules.column.length
  let height := rules.row.length
  GenState.mk
    (rules.row.enum.map (fun p => LineState.mk p.1 (generateLineSolns width p.2)))
    (rules.column.enum.map (fun p => LineState.mk p.1 (generateLineSolns height p.2)))
    rules.row.length rules.column.length board

/-- Total candidate mass of a state: the sum of all candidate-set sizes. -/
def measureOf (s : GenState) : Nat :=
  (s.rowMap.map (fun e => e.solns.length)).sum +
    (s.colMap.map (fun e => e.solns.length)).sum

/-- A full run of `generateMoves` on a given board; the fuel is one more
than the initial candidate mass, which the termination theorem shows is
always sufficient. -/
def generateMovesRun (rules : Rules) (board : Board) : RunResult :=
  let s := initState rules board
  runLoop (measureOf s + 1) s []

/-- `solve` from the solver.  A `SolveError` becomes an unsolved
`Solution`; any other failure (the modelled `TypeError`) escapes, which
`Except.error ()` represents. -/
def solve (rules : Rules) : Except Unit Solution :=
  match generateMovesRun rules (generateEmptyBoardFor rules) with
  | .finished _ b => .ok (Solution.mk b true [] [])
  | .failed _ b e => .ok (Solution.mk b false e.unsolvedRows e.unsolvedColumns)
  | _ => .error ()

/-- Accumulator-style scanner for the maximal colored runs of a line:
the accumulator holds the value and length of the run in progress. -/
def runsOfAux : List Int → Option (Int × Nat) → List (Nat × Int)
  | [], none => []
  | [], some p => [(p.2, p.1)]
  | c :: rest, none =>
    if c < 0 then runsOfAux rest none else runsOfAux rest (some (c, 1))
  | c :: rest, some p =>
    if c == p.1 then runsOfAux rest (some (p.1, p.2 + 1))
    else (p.2, p.1) ::
      (if c < 0 then runsOfAux rest none else runsOfAux rest (some (c, 1)))

/-- The maximal runs of nonnegative values in a line, as
(length, value) pairs; blanks only separate runs. -/
def runsOf (l : List Int) : List (Nat × Int) := runsOfAux l none

/-- The runs a clue demands, as (length, value) pairs. -/
def ruleRuns (rule : Rule) : List (Nat × Int) :=
  rule.map (fun r => (r.count, r.val))

/-- A line realizes a clue when its maximal runs are exactly the clue's. -/
def lineRealizes (l : Line) (rule : Rule) : Prop := runsOf l = ruleRuns rule

instance (l : Line) (rule : Rule) : Decidable (lineRealizes l rule) := by
  unfold lineRealizes; infer_instance

/-- Column `y` of a board, read top to bottom (missing cells read 0). -/
def boardColLine (b : Board) (y : Nat) : Line :=
  b.map (fun row => row.getD y 0)

/-- One mutual arc-consistency pass at the intersection of a row and a
column, composed exactly as the solver loop composes it: both candidate
sets are filtered by the intersection of the color sets they allow at
the cell (row index `x`, column index `y`). -/
def arcPruneOnce (rowSolns colSolns : List Line) (x y : Nat) :
    List Line × List Line :=
  let combined := setIntersection (getPossibleColors colSolns x)
    (getPossibleColors rowSolns y)
  ((pruneByColors rowSolns combined y).1, (pruneByColors colSolns combined x).1)

/-- The number of candidates such a pass removes from the two sets. -/
def arcPruneRemoved (rowSolns colSolns : List Line) (x y : Nat) : Nat :=
  let combined := setIntersection (getPossibleColors colSolns x)
    (getPossibleColors rowSolns y)
  (pruneByColors rowSolns combined y).2 + (pruneByColors colSolns combined x).2

/-- The board a run ends with, whatever the outcome. -/
def RunResult.boardOf : RunResult → Board
  | .finished _ b => b
  | .failed _ b _ => b
  | .crashed _ b => b
  | .outOfFuel _ b => b

/-- The moves a run yielded, whatever the outcome. -/
def RunResult.movesOf : RunResult → List Move
  | .finished m _ => m
  | .failed m _ _ => m
  | .crashed m _ => m
  | .outOfFuel m _ => m

/-- Read one board cell; `none` when the cell does not exist. -/
def boardCell (b : Board) (x y : Nat) : Option Int :=
  (b.get? x).bind (fun row => row.get? y)

/-- The board a round ends with, whatever its outcome. -/
def RoundOut.boardOf : RoundOut → Board
  | .next s _ => s.board
  | .fail _ b _ => b
  | .crash _ b => b

/-- The moves a round yielded, whatever its outcome. -/
def RoundOut.movesOf : RoundOut → List Move
  | .next _ ms => ms
  | .fail ms _ _ => ms
  | .crash ms _ => ms

/-- The cells contributed by one occupied slot of a decoded arrangement. -/
def runBlock (t : TaggedEntry) : List Int :=
  (if t.same then [(-1 : Int)] else []) ++ List.replicate t.count t.val

/-- Recursive restatement of `taggedRule`: the same-color flag of each
run compares its value with the previous run's value. -/
def tagRec : Option Int → List RuleEntry → List TaggedEntry
  | _, [] => []
  | prev, r :: rs => TaggedEntry.mk r.count r.val (prev == some r.val) :: tagRec (some r.val) rs

/-- The run assigned to slot `q` by an arrangement (position list paired
with tagged runs). -/
def lookupSlot : List Nat → List TaggedEntry → Nat → Option TaggedEntry
  | p :: ps, t :: ts, q => if q = p then some t else lookupSlot ps ts q
  | _, _, _ => none

/-- Reference decoding of an arrangement: slots `o` to `T-1`, each
unoccupied slot one blank, each occupied slot its run block. -/
def gapDecode : Nat → Nat → List Nat → List TaggedEntry → List Int
  | o, T, [], _ => List.replicate (T - o) (-1)
  | o, T, _ :: _, [] => List.replicate (T - o) (-1)
  | o, T, p :: ps, t :: ts =>
    List.replicate (p - o) (-1) ++ runBlock t ++ gapDecode (p + 1) T ps ts

/-- The cells contributed by one slot: a blank, or the slot's run block. -/
def decSlot : Option TaggedEntry → List Int
  | none => [(-1 : Int)]
  | some t => runBlock t

/-- Length of the longest prefix of cells equal to `v`. -/
def leadCount (v : Int) : List Int → Nat
  | [] => 0
  | c :: rest => if c = v then leadCount v rest + 1 else 0

/-- Recover the arrangement that decodes to a given line: each run sits
after the line's leading blanks, one of which is absorbed by a
mandatory same-color separator. -/
def encodeArr : Nat → Option Int → List RuleEntry → List Int → List Nat
  | _, _, [], _ => []
  | o, prev, r :: rs, l =>
    let g := leadCount (-1) l
    let p := o + g - (if prev == some r.val then 1 else 0)
    p :: encodeArr (p + 1) (some r.val) rs (l.drop (g + r.count))

/-- Total colored cells a clue demands. -/
def sumCounts (rule : List RuleEntry) : Nat := (rule.map (fun r => r.count)).sum

/-- Total colored cells of a tagged run list. -/
def sumCountsT (ts : List TaggedEntry) : Nat := (ts.map (fun t => t.count)).sum

/-- Number of runs of a tagged run list flagged as same-colored. -/
def samesT (ts : List TaggedEntry) : Nat := (ts.filter (fun t => t.same)).length

/-- Number of mandatory same-color separators of a clue. -/
def samesCount (prev : Option Int) (rule : List RuleEntry) : Nat :=
  ((tagRec prev rule).filter (fun t => t.same)).length

/-- The slot total of the stars-and-bars enumeration, exactly as the
spec states it: line length minus mandatory separators minus colored
cells, plus the number of runs. -/
def totalSlotsOf (lineLength : Nat) (rule : Rule) : Int :=
  (lineLength : Int) - samesCount none rule - sumCounts rule + rule.length

/-- Row `x` of a total coloring, as a line of the board's width. -/
def rowLineOf (sol : Nat → Nat → Int) (w x : Nat) : Line :=
  count w (fun y => sol x y)

/-- Column `y` of a total coloring, as a line of the board's height. -/
def colLineOf (sol : Nat → Nat → Int) (h y : Nat) : Line :=
  count h (fun x => sol x y)

/-- The central soundness invariant of the propagation loop: every
still-tracked row keeps the given total coloring's row line among its
candidates, and likewise for columns; indices stay within the grid. -/
def mapsInv (sol : Nat → Nat → Int) (w h : Nat)
    (rm cm : List LineState) : Prop :=
  (∀ e ∈ rm, e.idx < h ∧ rowLineOf sol w e.idx ∈ e.solns) ∧
  (∀ e ∈ cm, e.idx < w ∧ colLineOf sol h e.idx ∈ e.solns)

/-- A total coloring solves the rules when every row and column realizes
its clue (cells are blanks or colors, never the unknown marker read as a
negative value other than -1). -/
def IsSolutionOf (sol : Nat → Nat → Int) (rules : Rules) : Prop :=
  (∀ x y, -1 ≤ sol x y) ∧
  (∀ x, x < rules.row.length →
    runsOf (rowLineOf sol rules.column.length x) = ruleRuns (rules.row.getD x [])) ∧
  (∀ y, y < rules.column.length →
    runsOf (colLineOf sol rules.row.length y) = ruleRuns (rules.column.getD y []))

/-- The line indices present in one dimension's map. -/
def idxsOf (m : List LineState) : List Nat := m.map (fun e => e.idx)

/-- Whether a run stopped because fuel ran out. -/
def RunResult.ranOut : RunResult → Bool
  | .outOfFuel _ _ => true
  | _ => false

/-- The candidate mass of one dimension's map: the sum of its
candidate-set sizes. -/
def massOf (m : List LineState) : Nat := (m.map (fun e => e.solns.length)).sum

-- ===== Theorems =====

/-- C1: The claim fails on the code: for the one-cell puzzle whose row
clue is `[{count:1,val:1}]` and whose column clue is `[{count:1,val:2}]`,
`solve` returns `solved = true` with board `[[1]]`, yet column 0 of that
board is `[1]`, which does not realize the column clue (it demands
`[2]`).  The singleton row and column candidate sets are retired as
solved without ever being checked against each other, so `solve` reports
success on an inconsistent puzzle. -/
theorem solve_success_board_violates_column_clue :
    solve (Rules.mk [[RuleEntry.mk 1 2]] [[RuleEntry.mk 1 1]]) =
      .ok (Solution.mk [[1]] true [] []) ∧
    ¬ lineRealizes (boardColLine [[(1 : Int)]] 0) [RuleEntry.mk 1 2] := by
  constructor
  · rfl
  · decide

/-- C2: The claim fails on the code: for the puzzle with one row clue
`[{count:2,val:1}]` and two column clues `[{count:1,val:1}]`,
`solve` returns `solved = true`, but the returned board `[[1],[0]]`
still contains an unknown (0) cell, because `generateEmptyBoardFor`
transposes the dimensions and the move to cell (0,1) is silently skipped
by the `board[x][y] !== 0` guard reading past the end of the row. -/
theorem solve_success_board_contains_zero :
    solve (Rules.mk [[RuleEntry.mk 1 1], [RuleEntry.mk 1 1]] [[RuleEntry.mk 2 1]]) =
      .ok (Solution.mk [[1], [0]] true [] []) ∧
    (0 : Int) ∈ ([[1], [0]] : Board).flatten := by
  constructor
  · rfl
  · decide

/-- C3: The claim fails on the code: `generateEmptyBoardFor` builds
`count(rules.column.length, () => count(rules.row.length, () => 0))`,
so for one row clue and two column clues the board `solve` creates and
returns has 2 rows of 1 cell each, instead of 1 row of 2 cells. -/
theorem solve_board_dimensions_transposed :
    (generateEmptyBoardFor
        (Rules.mk [[RuleEntry.mk 1 1], [RuleEntry.mk 1 1]] [[RuleEntry.mk 2 1]])).length = 2 ∧
    (Rules.mk [[RuleEntry.mk 1 1], [RuleEntry.mk 1 1]] [[RuleEntry.mk 2 1]]).row.length = 1 ∧
    solve (Rules.mk [[RuleEntry.mk 1 1], [RuleEntry.mk 1 1]] [[RuleEntry.mk 2 1]]) =
      .ok (Solution.mk [[1], [0]] true [] []) := by
  refine ⟨by decide, by decide, by rfl⟩

/-- C4: The claim fails on the code: for the row clue
`[{count:2,val:1},{count:2,val:1}]` on a line of length 3 (an unfit
clue), `generateLineSolns` returns the empty candidate list, and the
very next thing `generateMoves` does with it is `lines[0].length`
inside `findValidMoves` — a `TypeError`, not a `SolveError` — so
`solve` does not return a `Solution` but lets the `TypeError` escape. -/
theorem solve_unfit_clue_raises_type_error :
    generateLineSolns 3 [RuleEntry.mk 2 1, RuleEntry.mk 2 1] = [] ∧
    findValidMoves [] [0, 1, 2] (fun y next => Move.mk 0 y next) = none ∧
    solve (Rules.mk [[], [], []] [[RuleEntry.mk 2 1, RuleEntry.mk 2 1]]) = .error () := by
  refine ⟨by rfl, by rfl, by rfl⟩

theorem contains_iff_mem {α : Type} [BEq α] [LawfulBEq α] (l : List α) (a : α) :
    l.contains a = true ↔ a ∈ l := List.elem_iff

/-- C9: Both pruning operations only filter: the result is a sublist of
the input candidate set (so no candidate is ever added), its size never
increases, and the reported removal count is exactly the input size
minus the output size. -/
theorem prune_operations_only_shrink (dim : Move → Nat) (solns : List Line)
    (moves : List Move) (allowed : List (Option Int)) (i : Nat) :
    ((pruneByMoves dim solns moves).1.Sublist solns ∧
      (pruneByMoves dim solns moves).1.length ≤ solns.length ∧
      (pruneByMoves dim solns moves).2
        = solns.length - (pruneByMoves dim solns moves).1.length) ∧
    ((pruneByColors solns allowed i).1.Sublist solns ∧
      (pruneByColors solns allowed i).1.length ≤ solns.length ∧
      (pruneByColors solns allowed i).2
        = solns.length - (pruneByColors solns allowed i).1.length) :=
  ⟨⟨List.filter_sublist solns, List.length_filter_le _ solns, rfl⟩,
    ⟨List.filter_sublist solns, List.length_filter_le _ solns, rfl⟩⟩

theorem mem_getPossibleColors {solns : List Line} {i : Nat} {c : Option Int} :
    c ∈ getPossibleColors solns i ↔ ∃ s, s ∈ solns ∧ s.get? i = c := by
  simp [getPossibleColors]

theorem mem_setIntersection {a b : List (Option Int)} {c : Option Int} :
    c ∈ setIntersection a b ↔ c ∈ a ∧ c ∈ b := by
  simp [setIntersection, List.mem_filter, contains_iff_mem]

/-- C8: One mutual arc-consistency pass at an intersection is
idempotent: running the same pass again on the two filtered candidate
sets removes zero further candidates from either set. -/
theorem arc_prune_idempotent (rowSolns colSolns : List Line) (x y : Nat) :
    arcPruneRemoved (arcPruneOnce rowSolns colSolns x y).1
      (arcPruneOnce rowSolns colSolns x y).2 x y = 0 := by
  have hfull : ∀ (S : List Line) (allowed : List (Option Int)) (i : Nat),
      (∀ s ∈ S, allowed.contains (s.get? i) = true) →
      (pruneByColors S allowed i).2 = 0 := by
    intro S allowed i h
    have he : S.filter (fun s => allowed.contains (s.get? i)) = S :=
      List.filter_eq_self.mpr h
    have hd : (pruneByColors S allowed i).2
        = S.length - (S.filter (fun s => allowed.contains (s.get? i))).length := rfl
    rw [hd, he, Nat.sub_self]
  have hR : (arcPruneOnce rowSolns colSolns x y).1
      = rowSolns.filter (fun s => (setIntersection (getPossibleColors colSolns x)
          (getPossibleColors rowSolns y)).contains (s.get? y)) := rfl
  have hC : (arcPruneOnce rowSolns colSolns x y).2
      = colSolns.filter (fun s => (setIntersection (getPossibleColors colSolns x)
          (getPossibleColors rowSolns y)).contains (s.get? x)) := rfl
  have key : ∀ c : Option Int,
      (setIntersection (getPossibleColors colSolns x)
        (getPossibleColors rowSolns y)).contains c = true →
      (setIntersection (getPossibleColors (arcPruneOnce rowSolns colSolns x y).2 x)
        (getPossibleColors (arcPruneOnce rowSolns colSolns x y).1 y)).contains c = true := by
    intro c hc
    rw [contains_iff_mem] at hc
    rcases mem_setIntersection.mp hc with ⟨hcol, hrow⟩
    rw [contains_iff_mem]
    refine mem_setIntersection.mpr ⟨?_, ?_⟩
    · rcases mem_getPossibleColors.mp hcol with ⟨t, ht, htc⟩
      refine mem_getPossibleColors.mpr ⟨t, ?_, htc⟩
      rw [hC]
      refine List.mem_filter.mpr ⟨ht, ?_⟩
      rw [htc, contains_iff_mem]
      exact hc
    · rcases mem_getPossibleColors.mp hrow with ⟨r, hr, hrc⟩
      refine mem_getPossibleColors.mpr ⟨r, ?_, hrc⟩
      rw [hR]
      refine List.mem_filter.mpr ⟨hr, ?_⟩
      rw [hrc, contains_iff_mem]
      exact hc
  have hz1 : (pruneByColors (arcPruneOnce rowSolns colSolns x y).1
      (setIntersection (getPossibleColors (arcPruneOnce rowSolns colSolns x y).2 x)
        (getPossibleColors (arcPruneOnce rowSolns colSolns x y).1 y)) y).2 = 0 := by
    refine hfull _ _ _ ?_
    intro s hs
    rw [hR] at hs
    exact key _ (List.mem_filter.mp hs).2
  have hz2 : (pruneByColors (arcPruneOnce rowSolns colSolns x y).2
      (setIntersection (getPossibleColors (arcPruneOnce rowSolns colSolns x y).2 x)
        (getPossibleColors (arcPruneOnce rowSolns colSolns x y).1 y)) x).2 = 0 := by
    refine hfull _ _ _ ?_
    intro s hs
    rw [hC] at hs
    exact key _ (List.mem_filter.mp hs).2
  show (pruneByColors (arcPruneOnce rowSolns colSolns x y).1 _ y).2
      + (pruneByColors (arcPruneOnce rowSolns colSolns x y).2 _ x).2 = 0
  rw [hz1, hz2]

theorem boardCell_set_other {b : Board} {row : List Int} {mx my x y : Nat} {w : Int}
    (hrow : b.get? mx = some row) (hne : ¬(mx = x ∧ my = y)) :
    boardCell (b.set mx (row.set my w)) x y = boardCell b x y := by
  unfold boardCell
  by_cases hx : mx = x
  · subst hx
    rw [List.get?_set_eq, hrow]
    have hy : my ≠ y := fun hy => hne ⟨rfl, hy⟩
    show (row.set my w).get? y = row.get? y
    rw [List.get?_set_ne _ _ hy]
  · rw [List.get?_set_ne _ _ hx]

theorem applyMovesGo_preserves {x y : Nat} {v : Int} (hv : v ≠ 0) :
    ∀ (moves : List Move) (b : Board) (acc : List Move),
      boardCell b x y = some v →
      boardCell (applyMovesGo moves b acc).2.1 x y = some v := by
  intro moves
  induction moves with
  | nil => intro b acc h; simpa [applyMovesGo] using h
  | cons m rest ih =>
    intro b acc h
    cases hrow : b.get? m.x with
    | none =>
      rw [applyMovesGo, hrow]
      simpa using h
    | some row =>
      cases hcell : row.get? m.y with
      | none =>
        rw [applyMovesGo, hrow]
        dsimp only
        rw [hcell]
        exact ih b acc h
      | some w =>
        rw [applyMovesGo, hrow]
        dsimp only
        rw [hcell]
        dsimp only
        by_cases hw : w = 0
        · rw [if_pos (by simpa using hw)]
          refine ih _ _ ?_
          have hne : ¬(m.x = x ∧ m.y = y) := by
            intro hxy
            rw [boardCell, ← hxy.1, hrow] at h
            simp only [Option.some_bind] at h
            rw [← hxy.2, hcell] at h
            exact hv (by rw [← Option.some.inj h, hw])
          rw [boardCell_set_other hrow hne]
          exact h
        · rw [if_neg (by simpa using hw)]
          exact ih b acc h

theorem roundStep_preserves {s : GenState} {x y : Nat} {v : Int} (hv : v ≠ 0)
    (h : boardCell s.board x y = some v) :
    boardCell (roundStep s).boardOf x y = some v := by
  have hap : ∀ ms : List Move,
      boardCell (applyMovesGo ms s.board []).2.1 x y = some v :=
    fun ms => applyMovesGo_preserves hv ms s.board [] h
  unfold roundStep
  dsimp only
  split
  · exact h
  · split
    · exact h
    · split
      · exact hap _
      · split
        · exact hap _
        · split
          · exact hap _
          · split
            · exact hap _
            · split
              · exact hap _
              · split
                · exact hap _
                · exact hap _

theorem runLoop_preserves {x y : Nat} {v : Int} (hv : v ≠ 0) :
    ∀ (fuel : Nat) (s : GenState) (acc : List Move),
      boardCell s.board x y = some v →
      boardCell (runLoop fuel s acc).boardOf x y = some v := by
  intro fuel
  induction fuel with
  | zero => intro s acc h; exact h
  | succ n ih =>
    intro s acc h
    rw [runLoop]
    split
    · exact h
    · have hr := roundStep_preserves hv h (s := s)
      cases hstep : roundStep s with
      | next s' ys =>
        rw [hstep] at hr
        exact ih s' (acc ++ ys) hr
      | fail ys b e =>
        rw [hstep] at hr
        exact hr
      | crash ys b =>
        rw [hstep] at hr
        exact hr

/-- C10: Frame property of the move generator: it never overwrites a
cell that holds a non-zero value.  Whatever the outcome of the run
(completion, `SolveError`, `TypeError`, or fuel exhaustion), every cell
of the caller-supplied board that did not read 0 at the start still
holds its original value in the final board. -/
theorem generateMoves_preserves_nonzero_cells (rules : Rules) (board : Board)
    (x y : Nat) (v : Int) (hcell : boardCell board x y = some v) (hv : v ≠ 0) :
    boardCell (generateMovesRun rules board).boardOf x y = some v := by
  unfold generateMovesRun
  exact runLoop_preserves hv _ _ [] hcell

/-- Witness for C10 at a concrete input: a pre-filled 1×1 board keeps
its non-zero cell across a full run. -/
theorem generateMoves_preserves_nonzero_cells_witness :
    boardCell (RunResult.boardOf (generateMovesRun
      (Rules.mk [[RuleEntry.mk 1 1]] [[RuleEntry.mk 1 1]]) [[5]])) 0 0 = some 5 :=
  generateMoves_preserves_nonzero_cells
    (Rules.mk [[RuleEntry.mk 1 1]] [[RuleEntry.mk 1 1]]) [[5]] 0 0 5 rfl (by decide)

theorem choose_sound (max : Int) :
    ∀ (pick : Nat) (start : Int) (a : List Int), a ∈ choose max pick start →
      a.length = pick ∧ a.Pairwise (· < ·) ∧ ∀ p ∈ a, start ≤ p ∧ p < max := by
  intro pick
  induction pick with
  | zero => intro start a h; simp [choose] at h
  | succ n ih =>
    intro start a h
    cases n with
    | zero =>
      rw [choose] at h
      simp only [count, List.mem_map, List.mem_range] at h
      obtain ⟨i, hi, rfl⟩ := h
      refine ⟨rfl, List.pairwise_singleton _ _, ?_⟩
      intro p hp
      simp only [List.mem_singleton] at hp
      subst hp
      have : (i : Int) < max - start := Int.lt_toNat.mp hi
      omega
    | succ m =>
      rw [choose] at h
      simp only [count, List.mem_flatMap, List.mem_map, List.mem_range] at h
      obtain ⟨i, ⟨j, hj, rfl⟩, sub, hsub, rfl⟩ := h
      obtain ⟨hlen, hpw, hbd⟩ := ih (start + j + 1) sub hsub
      have hjlt : (j : Int) < max - 1 - start := Int.lt_toNat.mp hj
      refine ⟨by simp [hlen], ?_, ?_⟩
      · exact List.pairwise_cons.mpr ⟨fun p hp => by have := (hbd p hp).1; omega, hpw⟩
      · intro p hp
        rcases List.mem_cons.mp hp with rfl | hp
        · omega
        · have := hbd p hp
          omega

theorem choose_complete (max : Int) :
    ∀ (pick : Nat) (start : Int) (a : List Int),
      a.length = pick → 1 ≤ pick → a.Pairwise (· < ·) →
      (∀ p ∈ a, start ≤ p ∧ p < max) → a ∈ choose max pick start := by
  intro pick
  induction pick with
  | zero => intro start a _ h; omega
  | succ n ih =>
    intro start a hlen _ hpw hbd
    cases n with
    | zero =>
      match a, hlen with
      | [p], _ =>
        rw [choose]
        simp only [count, List.mem_map, List.mem_range]
        have hb := hbd p (by simp)
        refine ⟨(p - start).toNat, by omega, ?_⟩
        have heq : start + ((p - start).toNat : Int) = p := by omega
        rw [heq]
    | succ m =>
      match a, hlen with
      | p :: rest, hlen =>
        have hrlen : rest.length = m + 1 := by simpa using hlen
        have hbp := hbd p (by simp)
        have hrest_lt : ∀ q ∈ rest, p < q := (List.pairwise_cons.mp hpw).1
        have hrest_ne : rest ≠ [] := by
          intro hr
          rw [hr] at hrlen
          simp at hrlen
        obtain ⟨q0, hq0⟩ := List.exists_mem_of_ne_nil rest hrest_ne
        have hq0b := hbd q0 (List.mem_cons_of_mem _ hq0)
        have hpq0 := hrest_lt q0 hq0
        rw [choose]
        simp only [count, List.mem_flatMap, List.mem_map, List.mem_range]
        refine ⟨p, ⟨(p - start).toNat, ?_, by omega⟩, rest, ?_, rfl⟩
        · omega
        · refine ih (p + 1) rest hrlen (by omega) (List.pairwise_cons.mp hpw).2 ?_
          intro q hq
          have := hbd q (List.mem_cons_of_mem _ hq)
          have := hrest_lt q hq
          omega

theorem sum_range_choose_hockey (r : Nat) :
    ∀ N : Nat, (∑ k ∈ Finset.range N, Nat.choose k r) = Nat.choose N (r + 1) := by
  intro N
  induction N with
  | zero => simp [Nat.choose_eq_zero_of_lt]
  | succ n ih =>
    rw [Finset.sum_range_succ, ih, Nat.choose_succ_succ, Nat.add_comm]

theorem sum_map_range (M : Nat) (h : Nat → Nat) :
    ((List.range M).map h).sum = ∑ j ∈ Finset.range M, h j := rfl

theorem choose_length (max : Int) :
    ∀ (pick : Nat) (start : Int), 1 ≤ pick →
      (choose max pick start).length = Nat.choose (max - start).toNat pick := by
  intro pick
  induction pick with
  | zero => omega
  | succ n ih =>
    intro start _
    cases n with
    | zero =>
      rw [choose]
      simp [count, Nat.choose_one_right]
    | succ m =>
      rw [choose, List.length_flatMap, count, List.map_map, sum_map_range]
      have hstep : ∀ j ∈ Finset.range (max - 1 - start).toNat,
          ((List.length ∘ fun i => (choose max (m + 1) (i + 1)).map
            (fun sub => i :: sub)) ∘ fun j : Nat => start + (j : Int)) j
          = Nat.choose (max - start - j - 1).toNat (m + 1) := by
        intro j _
        simp only [Function.comp_apply, List.length_map]
        rw [ih (start + j + 1) (by omega)]
        congr 2
        omega
      rw [Finset.sum_congr rfl hstep]
      rcases le_or_lt max start with hle | hlt
      · have h1 : (max - 1 - start).toNat = 0 := by omega
        have h2 : (max - start).toNat = 0 := by omega
        rw [h1, h2]
        simp [Nat.choose_eq_zero_of_lt]
      · set N := (max - start).toNat with hNdef
        have hN : 1 ≤ N := by omega
        have hM : (max - 1 - start).toNat = N - 1 := by omega
        rw [hM]
        have hterm : ∀ j ∈ Finset.range (N - 1),
            Nat.choose (max - start - j - 1).toNat (m + 1)
              = Nat.choose (N - 1 - j) (m + 1) := by
          intro j hj
          have hjN : j < N - 1 := Finset.mem_range.mp hj
          congr 1
          omega
        rw [Finset.sum_congr rfl hterm, ← Finset.sum_range_reflect]
        have hterm2 : ∀ j ∈ Finset.range (N - 1),
            Nat.choose (N - 1 - (N - 1 - 1 - j)) (m + 1)
              = Nat.choose (j + 1) (m + 1) := by
          intro j hj
          have hjN : j < N - 1 := Finset.mem_range.mp hj
          congr 1
          omega
        rw [Finset.sum_congr rfl hterm2]
        have hshift : (∑ j ∈ Finset.range (N - 1), Nat.choose (j + 1) (m + 1))
            = ∑ k ∈ Finset.range N, Nat.choose k (m + 1) := by
          have hsucc : N = N - 1 + 1 := by omega
          rw [hsucc, Finset.sum_range_succ']
          simp [Nat.choose_eq_zero_of_lt]
        rw [hshift, sum_range_choose_hockey]

theorem choose_pairwise_lex (max : Int) :
    ∀ (pick : Nat) (start : Int),
      List.Pairwise (List.Lex (· < ·)) (choose max pick start) := by
  intro pick
  induction pick with
  | zero => intro start; simp [choose]
  | succ n ih =>
    intro start
    cases n with
    | zero =>
      rw [choose]
      unfold count
      rw [List.pairwise_map]
      refine List.Pairwise.imp ?_ (List.pairwise_lt_range _)
      intro i j hij
      exact List.Lex.rel (by omega)
    | succ m =>
      rw [choose]
      rw [List.pairwise_flatMap]
      constructor
      · intro i _
        rw [List.pairwise_map]
        refine List.Pairwise.imp ?_ (ih (i + 1))
        intro a b hab
        exact List.Lex.cons hab
      · unfold count
        rw [List.pairwise_map]
        refine List.Pairwise.imp ?_ (List.pairwise_lt_range _)
        intro i j hij a ha b hb
        simp only [List.mem_map] at ha hb
        obtain ⟨sa, _, rfl⟩ := ha
        obtain ⟨sb, _, rfl⟩ := hb
        exact List.Lex.rel (by omega)

theorem count_const {α : Type} (n : Nat) (c : α) :
    count n (fun _ => c) = List.replicate n c := by
  unfold count
  rw [List.map_const', List.length_range]

theorem foldl_add_counts (entries : List RuleEntry) :
    ∀ init : Int, entries.foldl (fun a r => a + (r.count : Int)) init
      = init + sumCounts entries := by
  induction entries with
  | nil => intro init; simp [sumCounts]
  | cons r rs ih =>
    intro init
    rw [List.foldl_cons, ih]
    unfold sumCounts
    rw [List.map_cons, List.sum_cons]
    push_cast
    ring

theorem tag_enumFrom (rule : Rule) :
    ∀ (rs : List RuleEntry) (k : Nat), 1 ≤ k →
      (∀ j : Nat, rule.get? (k + j) = rs.get? j) →
      (List.enumFrom k rs).map (fun p => TaggedEntry.mk p.2.count p.2.val
        (isSameColorAsPrevious rule p.1))
      = tagRec ((rule.get? (k - 1)).map (fun r => r.val)) rs := by
  intro rs
  induction rs with
  | nil => intro k _ _; rfl
  | cons r rs ih =>
    intro k hk hget
    rw [List.enumFrom_cons, List.map_cons, tagRec]
    have hk0 : rule.get? k = some r := by
      have := hget 0
      simpa using this
    have hsame : isSameColorAsPrevious rule k
        = (((rule.get? (k - 1)).map (fun e => e.val)) == some r.val) := by
      have hk1 : k = (k - 1) + 1 := by omega
      rw [hk1, isSameColorAsPrevious]
      rw [← hk1, hk0]
      cases rule.get? (k - 1) with
      | none => rfl
      | some p => rfl
    have htail : (List.enumFrom (k + 1) rs).map (fun p => TaggedEntry.mk p.2.count p.2.val
        (isSameColorAsPrevious rule p.1)) = tagRec (some r.val) rs := by
      have := ih (k + 1) (by omega) (fun j => by
        have h := hget (j + 1)
        rw [show k + (j + 1) = k + 1 + j by omega] at h
        simpa using h)
      rw [this]
      congr 1
      rw [show k + 1 - 1 = k by omega, hk0]
      rfl
    rw [hsame, htail]

theorem sourceTagged_eq_tagRec (rule : Rule) :
    rule.enum.map (fun p => TaggedEntry.mk p.2.count p.2.val
      (isSameColorAsPrevious rule p.1)) = tagRec none rule := by
  cases rule with
  | nil => rfl
  | cons r rs =>
    show (List.enumFrom 0 (r :: rs)).map _ = _
    rw [List.enumFrom_cons, List.map_cons, tagRec]
    have hsame : isSameColorAsPrevious (r :: rs) 0 = ((none : Option Int) == some r.val) := rfl
    have htail := tag_enumFrom (r :: rs) rs 1 (by omega)
      (fun j => by rw [Nat.add_comm]; rfl)
    rw [hsame, htail]
    rfl

theorem get?_set_self {α : Type} (l : List α) (n : Nat) (a : α) :
    (l.set n a).get? n = if n < l.length then some a else none := by
  by_cases h : n < l.length
  · rw [List.get?_set_eq]
    rw [List.get?_eq_get h]
    simp [h]
  · rw [if_neg h]
    apply List.get?_eq_none.mpr
    rw [List.length_set]
    omega

theorem foldl_set_get? {α : Type} :
    ∀ (pjs : List (Nat × α)) (init : List α) (q : Nat),
      (pjs.map Prod.fst).Nodup →
      (pjs.foldl (fun s pt => s.set pt.1 pt.2) init).get? q
        = match pjs.find? (fun pt => pt.1 == q) with
          | some pt => if q < init.length then some pt.2 else none
          | none => init.get? q := by
  intro pjs
  induction pjs with
  | nil => intro init q _; rfl
  | cons pt rest ih =>
    intro init q hnd
    rw [List.map_cons, List.nodup_cons] at hnd
    rw [List.foldl_cons, ih (init.set pt.1 pt.2) q hnd.2, List.find?_cons]
    by_cases hq : pt.1 = q
    · subst hq
      have hrest : rest.find? (fun p => p.1 == pt.1) = none := by
        apply List.find?_eq_none.mpr
        intro x hx hbeq
        exact hnd.1 (by
          rw [List.mem_map]
          exact ⟨x, hx, (Nat.beq_eq.mp (by simpa using hbeq)).symm ▸ rfl⟩)
      rw [hrest]
      simp only [beq_self_eq_true]
      rw [get?_set_self]
    · have hbeq : (pt.1 == q) = false := by simpa using hq
      rw [hbeq]
      cases hfind : rest.find? (fun p => p.1 == q) with
      | some pt' =>
        rw [List.length_set]
      | none =>
        rw [List.get?_set_ne _ _ hq]

theorem enumFrom_map_zip {β : Type} (ts : List β) (f : Int → Nat) :
    ∀ (a : List Int) (k : Nat), a.length + k ≤ ts.length →
      (List.enumFrom k a).map (fun p => (f p.2, ts.get? p.1))
        = (a.map f).zip ((ts.drop k).map some) := by
  intro a
  induction a with
  | nil => intro k _; rfl
  | cons x xs ih =>
    intro k hk
    rw [List.enumFrom_cons, List.map_cons, List.map_cons]
    have hklt : k < ts.length := by
      simp only [List.length_cons] at hk
      omega
    rw [List.drop_eq_get_cons hklt, List.map_cons, List.zip_cons_cons]
    rw [List.get?_eq_get hklt]
    rw [ih (k + 1) (by simp only [List.length_cons] at hk; omega)]

theorem lookupSlot_none_of_lt :
    ∀ (ps : List Nat) (ts : List TaggedEntry) (q : Nat),
      (∀ r ∈ ps, q < r) → lookupSlot ps ts q = none := by
  intro ps
  induction ps with
  | nil => intro ts q _; rfl
  | cons p ps ih =>
    intro ts q hlt
    cases ts with
    | nil => rfl
    | cons t ts =>
      rw [lookupSlot]
      rw [if_neg (by have := hlt p (by simp); omega)]
      exact ih ts q (fun r hr => hlt r (by simp [hr]))

theorem find?_zip_lookup :
    ∀ (psN : List Nat) (ts : List TaggedEntry) (q : Nat),
      (psN.zip (ts.map some)).find? (fun pt => pt.1 == q)
        = match lookupSlot psN ts q with
          | some t => some (q, some t)
          | none => none := by
  intro psN
  induction psN with
  | nil => intro ts q; rfl
  | cons p ps ih =>
    intro ts q
    cases ts with
    | nil => rfl
    | cons t tss =>
      rw [List.map_cons, List.zip_cons_cons, List.find?_cons, lookupSlot]
      by_cases hq : q = p
      · subst hq
        simp
      · have hbeq : (p == q) = false := by simpa using (Ne.symm hq)
        rw [hbeq, if_neg hq]
        exact ih tss q

theorem replicate_get? {α : Type} (a : α) :
    ∀ (n q : Nat), (List.replicate n a).get? q = if q < n then some a else none := by
  intro n
  induction n with
  | zero => intro q; simp
  | succ m ih =>
    intro q
    cases q with
    | zero => simp [List.replicate_succ]
    | succ r =>
      rw [List.replicate_succ]
      show (List.replicate m a).get? r = _
      rw [ih r]
      by_cases h : r < m
      · rw [if_pos h, if_pos (by omega)]
      · rw [if_neg h, if_neg (by omega)]

theorem slots_eq (T : Nat) (a : List Int) (ts : List TaggedEntry)
    (hnd : (a.map Int.toNat).Nodup) (hlen : a.length ≤ ts.length) :
    a.enum.foldl (fun s p => s.set p.2.toNat (ts.get? p.1))
        (count T (fun _ => (none : Option TaggedEntry)))
      = (List.range T).map (fun q => lookupSlot (a.map Int.toNat) ts q) := by
  apply List.ext
  intro q
  have h1 : a.enum.foldl (fun s p => s.set p.2.toNat (ts.get? p.1))
        (count T (fun _ => (none : Option TaggedEntry)))
      = (a.enum.map (fun p => (p.2.toNat, ts.get? p.1))).foldl
          (fun s pt => s.set pt.1 pt.2) (count T (fun _ => none)) := by
    rw [List.foldl_map]
  have h2 : a.enum.map (fun p => (p.2.toNat, ts.get? p.1))
      = (a.map Int.toNat).zip (ts.map some) := by
    have := enumFrom_map_zip ts (fun z => z.toNat) a 0 (by omega)
    simpa using this
  have hfst : (((a.map Int.toNat).zip (ts.map some)).map Prod.fst).Nodup := by
    rw [List.map_fst_zip]
    · exact hnd
    · rw [List.length_map, List.length_map]
      exact hlen
  rw [h1, h2, foldl_set_get? _ _ _ hfst, find?_zip_lookup, count_const]
  cases hl : lookupSlot (a.map Int.toNat) ts q with
  | none =>
    rw [replicate_get?, List.get?_map]
    by_cases h : q < T
    · rw [if_pos h, List.get?_range h, Option.map_some', hl]
    · rw [if_neg h, List.get?_eq_none.mpr (by rw [List.length_range]; omega)]
      rfl
  | some t =>
    dsimp only
    rw [List.length_replicate, List.get?_map]
    by_cases h : q < T
    · rw [if_pos h, List.get?_range h, Option.map_some', hl]
    · rw [if_neg h, List.get?_eq_none.mpr (by rw [List.length_range]; omega)]
      rfl

theorem flatMap_replicate_none :
    ∀ n : Nat, (List.replicate n (none : Option TaggedEntry)).flatMap decSlot
      = List.replicate n (-1 : Int) := by
  intro n
  induction n with
  | zero => rfl
  | succ m ih =>
    rw [List.replicate_succ, List.flatMap_cons, ih, List.replicate_succ]
    rfl

theorem rangeMap_flatMap_gapDecode :
    ∀ (psN : List Nat) (ts : List TaggedEntry) (o T : Nat),
      psN.Pairwise (· < ·) → (∀ p ∈ psN, o ≤ p ∧ p < T) →
      ((List.range' o (T - o)).map (fun q => lookupSlot psN ts q)).flatMap decSlot
        = gapDecode o T psN ts := by
  intro psN
  induction psN with
  | nil =>
    intro ts o T _ _
    show _ = List.replicate (T - o) (-1 : Int)
    have hnone : ∀ q ∈ List.range' o (T - o), lookupSlot [] ts q
        = (fun _ : Nat => (none : Option TaggedEntry)) q := fun q _ => rfl
    rw [List.map_congr_left hnone, List.map_const', List.length_range',
      flatMap_replicate_none]
  | cons p ps ih =>
    intro ts o T hpw hbd
    have hple := List.pairwise_cons.mp hpw
    obtain ⟨hop, hpT⟩ := hbd p (by simp)
    cases ts with
    | nil =>
      show _ = List.replicate (T - o) (-1 : Int)
      have hnone : ∀ q ∈ List.range' o (T - o), lookupSlot (p :: ps) [] q
          = (fun _ : Nat => (none : Option TaggedEntry)) q := fun q _ => rfl
      rw [List.map_congr_left hnone, List.map_const', List.length_range',
        flatMap_replicate_none]
    | cons t tss =>
      have e2 : (T - o) = (T - p) + (p - o) := by omega
      have hsplit : List.range' o (T - o)
          = List.range' o (p - o) ++ (p :: List.range' (p + 1) (T - p - 1)) := by
        calc List.range' o (T - o) = List.range' o ((T - p) + (p - o)) := by rw [← e2]
          _ = List.range' o (p - o) ++ List.range' (o + 1 * (p - o)) (T - p) :=
              (List.range'_append o (p - o) (T - p) 1).symm
          _ = List.range' o (p - o) ++ List.range' p (T - p) := by
              rw [show o + 1 * (p - o) = p by omega]
          _ = List.range' o (p - o) ++ (p :: List.range' (p + 1) (T - p - 1)) := by
              rw [show T - p = (T - p - 1) + 1 by omega, List.range'_succ,
                Nat.add_sub_cancel]
      rw [hsplit, List.map_append, List.map_cons, List.flatMap_append, List.flatMap_cons]
      have hseg1 : ∀ q ∈ List.range' o (p - o), lookupSlot (p :: ps) (t :: tss) q
          = (fun _ : Nat => (none : Option TaggedEntry)) q := by
        intro q hq
        rw [List.mem_range'] at hq
        obtain ⟨i, hi, rfl⟩ := hq
        have hqp : o + 1 * i < p := by omega
        rw [lookupSlot, if_neg (by omega)]
        exact lookupSlot_none_of_lt ps tss _ (fun r hr => by
          have := hple.1 r hr
          omega)
      have hatp : lookupSlot (p :: ps) (t :: tss) p = some t := by
        rw [lookupSlot, if_pos rfl]
      have hseg3 : ∀ q ∈ List.range' (p + 1) (T - p - 1),
          lookupSlot (p :: ps) (t :: tss) q = lookupSlot ps tss q := by
        intro q hq
        rw [List.mem_range'] at hq
        obtain ⟨i, hi, rfl⟩ := hq
        rw [lookupSlot, if_neg (by omega)]
      rw [List.map_congr_left hseg1, List.map_const', List.length_range',
        flatMap_replicate_none, hatp, List.map_congr_left hseg3]
      rw [show T - p - 1 = T - (p + 1) by omega]
      rw [ih tss (p + 1) T hple.2 (fun r hr => ⟨by have := hple.1 r hr; omega,
        (hbd r (by simp [hr])).2⟩)]
      show _ = List.replicate (p - o) (-1) ++ runBlock t ++ gapDecode (p + 1) T ps tss
      rw [List.append_assoc]
      rfl

theorem toNat_pairwise {a : List Int} (hpw : a.Pairwise (· < ·))
    (hnn : ∀ p ∈ a, 0 ≤ p) : (a.map Int.toNat).Pairwise (· < ·) := by
  rw [List.pairwise_map]
  refine hpw.imp_of_mem ?_
  intro x y hx hy hxy
  have h1 := hnn x hx
  have h2 := hnn y hy
  omega

theorem decodeArrangement_eq (T : Int) (ts : List TaggedEntry) (a : List Int)
    (hpw : a.Pairwise (· < ·)) (hbd : ∀ p ∈ a, 0 ≤ p ∧ p < T)
    (hlen : a.length ≤ ts.length) :
    (a.enum.foldl (fun s p => s.set p.2.toNat (ts.get? p.1))
        (count T.toNat (fun _ => (none : Option TaggedEntry)))).flatMap
      (fun slot => match slot with
        | none => [(-1 : Int)]
        | some t => (if t.same then [(-1 : Int)] else []) ++ count t.count (fun _ => t.val))
      = gapDecode 0 T.toNat (a.map Int.toNat) ts := by
  have hN : (a.map Int.toNat).Pairwise (· < ·) :=
    toNat_pairwise hpw (fun p hp => (hbd p hp).1)
  have hnd : (a.map Int.toNat).Nodup := hN.imp (fun h => Nat.ne_of_lt h)
  have hfe : (fun slot => match slot with
      | none => [(-1 : Int)]
      | some t => (if t.same then [(-1 : Int)] else []) ++ count t.count (fun _ => t.val))
      = decSlot := by
    funext slot
    cases slot with
    | none => rfl
    | some t =>
      show (if t.same = true then [(-1 : Int)] else []) ++ count t.count (fun _ => t.val)
        = decSlot (some t)
      rw [count_const]
      rfl
  rw [slots_eq T.toNat a ts hnd hlen, hfe, List.range_eq_range',
    show List.range' 0 T.toNat = List.range' 0 (T.toNat - 0) by rw [Nat.sub_zero]]
  refine rangeMap_flatMap_gapDecode _ ts 0 T.toNat hN ?_
  intro p hp
  rw [List.mem_map] at hp
  obtain ⟨q, hq, rfl⟩ := hp
  have := hbd q hq
  omega

theorem runsOfAux_blanks :
    ∀ (g : Nat) (l : List Int),
      runsOfAux (List.replicate g (-1) ++ l) none = runsOfAux l none := by
  intro g
  induction g with
  | zero => intro l; rfl
  | succ m ih =>
    intro l
    rw [List.replicate_succ, List.cons_append, runsOfAux, if_pos (by norm_num)]
    exact ih l

theorem runsOfAux_merge (v : Int) :
    ∀ (c : Nat) (l : List Int) (n : Nat),
      runsOfAux (List.replicate c v ++ l) (some (v, n)) = runsOfAux l (some (v, n + c)) := by
  intro c
  induction c with
  | zero => intro l n; simp
  | succ m ih =>
    intro l n
    rw [List.replicate_succ, List.cons_append, runsOfAux]
    rw [if_pos (by simp)]
    rw [ih l (n + 1), show n + 1 + m = n + (m + 1) from by omega]

theorem runsOfAux_flush (v : Int) (n : Nat) :
    ∀ (l : List Int), (∀ c, l.head? = some c → ¬(c = v)) →
      runsOfAux l (some (v, n)) = (n, v) :: runsOfAux l none := by
  intro l hl
  cases l with
  | nil => rfl
  | cons c rest =>
    have hne : (c == v) = false := by simpa using hl c rfl
    conv_lhs => rw [runsOfAux]
    rw [hne]
    simp only [Bool.false_eq_true, if_false]
    rw [show runsOfAux (c :: rest) none
      = if c < 0 then runsOfAux rest none else runsOfAux rest (some (c, 1)) from rfl]

theorem runsOf_replicate_blanks (g : Nat) : runsOf (List.replicate g (-1)) = [] := by
  have h : List.replicate g (-1 : Int) = List.replicate g (-1) ++ [] := by simp
  rw [runsOf, h, runsOfAux_blanks]
  rfl

theorem gapDecode_head (r : RuleEntry) (rs : List RuleEntry) (prev : Option Int)
    (ps : List Nat) (o T : Nat) (hcnt : 1 ≤ r.count) :
    ∀ c, (gapDecode o T ps (tagRec prev (r :: rs))).head? = some c →
      c = -1 ∨ prev ≠ some c := by
  intro c hc
  cases ps with
  | nil =>
    rw [gapDecode] at hc
    left
    cases hTo : T - o with
    | zero => rw [hTo] at hc; simp at hc
    | succ m =>
      rw [hTo, List.replicate_succ] at hc
      simpa using hc.symm
  | cons p ps' =>
    rw [tagRec, gapDecode] at hc
    cases hpo : p - o with
    | succ m =>
      rw [hpo, List.replicate_succ] at hc
      left
      simpa using hc.symm
    | zero =>
      rw [hpo] at hc
      simp only [List.replicate_zero, List.nil_append] at hc
      by_cases hsame : (prev == some r.val) = true
      · rw [runBlock] at hc
        simp only [hsame, if_pos rfl] at hc
        left
        simpa using hc.symm
      · rw [runBlock] at hc
        simp only [hsame] at hc
        simp only [Bool.false_eq_true, if_false, List.nil_append] at hc
        obtain ⟨m, hm⟩ : ∃ m, r.count = m + 1 := ⟨r.count - 1, by omega⟩
        rw [hm, List.replicate_succ] at hc
        simp only [List.cons_append, List.head?_cons, Option.some.injEq] at hc
        right
        intro hprev
        rw [hprev, ← hc] at hsame
        simp at hsame

theorem span_le :
    ∀ (ps : List Nat) (o T : Nat), ps.Pairwise (· < ·) →
      (∀ p ∈ ps, o ≤ p ∧ p < T) → ps = [] ∨ o + ps.length ≤ T := by
  intro ps
  induction ps with
  | nil => intro o T _ _; left; rfl
  | cons p ps' ih =>
    intro o T hpw hbd
    right
    obtain ⟨hop, hpT⟩ := hbd p (by simp)
    have hple := List.pairwise_cons.mp hpw
    rcases ih (p + 1) T hple.2 (fun r hr => ⟨by have := hple.1 r hr; omega,
        (hbd r (by simp [hr])).2⟩) with hnil | hle
    · subst hnil
      simpa using by omega
    · simp only [List.length_cons]
      omega

theorem tagRec_length : ∀ (prev : Option Int) (rule : List RuleEntry),
    (tagRec prev rule).length = rule.length := by
  intro prev rule
  induction rule generalizing prev with
  | nil => rfl
  | cons r rs ih => simp [tagRec, ih]

theorem sumCountsT_tagRec : ∀ (prev : Option Int) (rule : List RuleEntry),
    sumCountsT (tagRec prev rule) = sumCounts rule := by
  intro prev rule
  induction rule generalizing prev with
  | nil => rfl
  | cons r rs ih =>
    rw [tagRec]
    unfold sumCountsT sumCounts at ih ⊢
    simp only [List.map_cons, List.sum_cons]
    rw [ih]

theorem runBlock_length (t : TaggedEntry) :
    (runBlock t).length = t.count + (if t.same = true then 1 else 0) := by
  rw [runBlock]
  by_cases h : t.same = true
  · simp [h]
  · simp [h]

theorem samesT_cons (t : TaggedEntry) (ts : List TaggedEntry) :
    samesT (t :: ts) = (if t.same = true then 1 else 0) + samesT ts := by
  unfold samesT
  by_cases h : t.same = true
  · rw [List.filter_cons_of_pos (by simpa using h)]
    simp [h]
    omega
  · rw [List.filter_cons_of_neg (by simpa using h)]
    simp [h]

theorem gapDecode_length :
    ∀ (ts : List TaggedEntry) (ps : List Nat) (o T : Nat),
      ps.length = ts.length → ps.Pairwise (· < ·) →
      (∀ p ∈ ps, o ≤ p ∧ p < T) →
      (gapDecode o T ps ts).length
        = (T - o) - ts.length + sumCountsT ts + samesT ts := by
  intro ts
  induction ts with
  | nil =>
    intro ps o T hlen _ _
    match ps, hlen with
    | [], _ =>
      rw [gapDecode, List.length_replicate]
      simp [sumCountsT, samesT]
  | cons t ts' ih =>
    intro ps o T hlen hpw hbd
    match ps, hlen with
    | p :: ps', hlen =>
      have hlen' : ps'.length = ts'.length := by simpa using hlen
      obtain ⟨hop, hpT⟩ := hbd p (by simp)
      have hple := List.pairwise_cons.mp hpw
      have hbd' : ∀ r ∈ ps', p + 1 ≤ r ∧ r < T :=
        fun r hr => ⟨by have := hple.1 r hr; omega, (hbd r (by simp [hr])).2⟩
      have hspan := span_le ps' (p + 1) T hple.2 hbd'
      rw [gapDecode, List.length_append, List.length_append, List.length_replicate,
        runBlock_length, ih ps' (p + 1) T hlen' hple.2 hbd', samesT_cons]
      unfold sumCountsT
      simp only [List.map_cons, List.sum_cons, List.length_cons]
      have hps'len : ps' = [] ∨ p + 1 + ts'.length ≤ T := by
        rcases hspan with h | h
        · left; exact h
        · right; rw [← hlen']; exact h
      rcases hps'len with hnil | hle
      · have : ts'.length = 0 := by rw [← hlen', hnil]; rfl
        rw [this]
        by_cases hs : t.same = true <;> simp [hs] <;> omega
      · by_cases hs : t.same = true <;> simp [hs] <;> omega

theorem gapDecode_runs :
    ∀ (rule : List RuleEntry) (ps : List Nat) (prev : Option Int) (o T : Nat),
      ps.length = rule.length → ps.Pairwise (· < ·) →
      (∀ p ∈ ps, o ≤ p ∧ p < T) →
      (∀ r ∈ rule, 1 ≤ r.count) → (∀ r ∈ rule, 0 ≤ r.val) →
      runsOf (gapDecode o T ps (tagRec prev rule)) = ruleRuns rule := by
  intro rule
  induction rule with
  | nil =>
    intro ps prev o T hlen _ _ _ _
    match ps, hlen with
    | [], _ =>
      rw [show tagRec prev [] = [] from rfl, gapDecode, runsOf_replicate_blanks]
      rfl
  | cons r rs ih =>
    intro ps prev o T hlen hpw hbd hcnt hval
    match ps, hlen with
    | p :: ps', hlen =>
      have hlen' : ps'.length = rs.length := by simpa using hlen
      have hple := List.pairwise_cons.mp hpw
      have hbd' : ∀ q ∈ ps', p + 1 ≤ q ∧ q < T :=
        fun q hq => ⟨by have := hple.1 q hq; omega, (hbd q (by simp [hq])).2⟩
      have hrv : 0 ≤ r.val := hval r (by simp)
      have hrc : 1 ≤ r.count := hcnt r (by simp)
      have hcnt' : ∀ e ∈ rs, 1 ≤ e.count := fun e he => hcnt e (by simp [he])
      have hval' : ∀ e ∈ rs, 0 ≤ e.val := fun e he => hval e (by simp [he])
      have hrest_head : ∀ c,
          (gapDecode (p + 1) T ps' (tagRec (some r.val) rs)).head? = some c →
          ¬(c = r.val) := by
        intro c hc
        cases rs with
        | nil =>
          have hps' : ps' = [] := List.length_eq_zero.mp (by simpa using hlen')
          rw [hps', show tagRec (some r.val) [] = [] from rfl, gapDecode] at hc
          cases hTo : T - (p + 1) with
          | zero => rw [hTo] at hc; simp at hc
          | succ m =>
            rw [hTo, List.replicate_succ] at hc
            simp only [List.head?_cons, Option.some.injEq] at hc
            omega
        | cons r2 rs2 =>
          rcases gapDecode_head r2 rs2 (some r.val) ps' (p + 1) T
              (hcnt' r2 (by simp)) c hc with h1 | h2
          · omega
          · intro he
            exact h2 (by rw [he])
      have hrun : runsOfAux (List.replicate r.count r.val
            ++ gapDecode (p + 1) T ps' (tagRec (some r.val) rs)) none
          = (r.count, r.val) :: runsOfAux
              (gapDecode (p + 1) T ps' (tagRec (some r.val) rs)) none := by
        obtain ⟨m, hm⟩ : ∃ m, r.count = m + 1 := ⟨r.count - 1, by omega⟩
        rw [hm, List.replicate_succ, List.cons_append, runsOfAux,
          if_neg (by omega), runsOfAux_merge,
          runsOfAux_flush r.val (1 + m) _ hrest_head,
          show 1 + m = r.count from by omega, hm]
      have htail : runsOfAux (gapDecode (p + 1) T ps' (tagRec (some r.val) rs)) none
          = ruleRuns rs :=
        ih ps' (some r.val) (p + 1) T hlen' hple.2 hbd' hcnt' hval'
      rw [tagRec, gapDecode, runsOf, List.append_assoc, runsOfAux_blanks]
      by_cases hsame : (prev == some r.val) = true
      · have hblock : runBlock (TaggedEntry.mk r.count r.val (prev == some r.val))
            = List.replicate 1 (-1) ++ List.replicate r.count r.val := by
          rw [runBlock]
          simp [hsame]
        rw [hblock, List.append_assoc, runsOfAux_blanks, hrun, htail]
        rfl
      · have hblock : runBlock (TaggedEntry.mk r.count r.val (prev == some r.val))
            = List.replicate r.count r.val := by
          rw [runBlock]
          simp [hsame]
        rw [hblock, hrun, htail]
        rfl

theorem generateLineSolns_eq (L : Nat) (rule : Rule) (hne : rule.length ≠ 0) :
    generateLineSolns L rule
      = (choose (totalSlotsOf L rule) rule.length 0).map (fun a =>
          (a.enum.foldl (fun s p => s.set p.2.toNat ((tagRec none rule).get? p.1))
            (count (totalSlotsOf L rule).toNat (fun _ => none))).flatMap
          (fun slot => match slot with
            | none => [(-1 : Int)]
            | some t => (if t.same then [(-1 : Int)] else [])
                ++ count t.count (fun _ => t.val))) := by
  unfold generateLineSolns
  rw [if_neg hne]
  rw [sourceTagged_eq_tagRec, foldl_add_counts rule 0]
  have hts : totalSlotsOf L rule
      = (L : Int) - ((tagRec none rule).filter (fun r => r.same)).length
        - (0 + (sumCounts rule : Int)) + rule.length := by
    unfold totalSlotsOf samesCount
    ring
  dsimp only
  rw [← hts]

theorem generateLineSolns_mem (L : Nat) (rule : Rule) (l : Line)
    (hl : l ∈ generateLineSolns L rule) :
    (rule = [] ∧ l = List.replicate L (-1)) ∨
    (rule ≠ [] ∧ ∃ a ∈ choose (totalSlotsOf L rule) rule.length 0,
      l = gapDecode 0 (totalSlotsOf L rule).toNat (a.map Int.toNat) (tagRec none rule)) := by
  by_cases hne : rule.length = 0
  · left
    have hr : rule = [] := List.length_eq_zero.mp hne
    refine ⟨hr, ?_⟩
    rw [hr] at hl
    have hl' : l ∈ [count L (fun _ => (-1 : Int))] := hl
    rw [List.mem_singleton] at hl'
    rw [hl', count_const]
  · right
    refine ⟨fun hr => hne (by rw [hr]; rfl), ?_⟩
    rw [generateLineSolns_eq L rule hne] at hl
    rw [List.mem_map] at hl
    obtain ⟨a, ha, rfl⟩ := hl
    obtain ⟨halen, hapw, habd⟩ := choose_sound (totalSlotsOf L rule) rule.length 0 a ha
    refine ⟨a, ha, ?_⟩
    exact decodeArrangement_eq (totalSlotsOf L rule) (tagRec none rule) a hapw
      (fun p hp => by have := habd p hp; omega)
      (by rw [halen, tagRec_length])

theorem generateLineSolns_mem_props (L : Nat) (rule : Rule) (l : Line)
    (hl : l ∈ generateLineSolns L rule) :
    l.length = L ∧
    ((∀ r ∈ rule, 1 ≤ r.count) → (∀ r ∈ rule, 0 ≤ r.val) →
      runsOf l = ruleRuns rule) := by
  rcases generateLineSolns_mem L rule l hl with ⟨hr, rfl⟩ | ⟨hr, a, ha, rfl⟩
  · subst hr
    refine ⟨List.length_replicate _ _, ?_⟩
    intro _ _
    rw [runsOf_replicate_blanks]
    rfl
  · obtain ⟨halen, hapw, habd⟩ := choose_sound (totalSlotsOf L rule) rule.length 0 a ha
    have hk : 1 ≤ rule.length := by
      cases rule with
      | nil => exact absurd rfl hr
      | cons x xs => simp
    have hpsN : (a.map Int.toNat).Pairwise (· < ·) :=
      toNat_pairwise hapw (fun p hp => (habd p hp).1)
    have hbdN : ∀ q ∈ a.map Int.toNat, 0 ≤ q ∧ q < (totalSlotsOf L rule).toNat := by
      intro q hq
      rw [List.mem_map] at hq
      obtain ⟨z, hz, rfl⟩ := hq
      have := habd z hz
      omega
    have hlenN : (a.map Int.toNat).length = (tagRec none rule).length := by
      rw [List.length_map, halen, tagRec_length]
    have hlenN' : (a.map Int.toNat).length = rule.length := by
      rw [List.length_map, halen]
    have hTk : rule.length ≤ (totalSlotsOf L rule).toNat := by
      rcases span_le (a.map Int.toNat) 0 (totalSlotsOf L rule).toNat hpsN hbdN with h0 | h0
      · rw [h0] at hlenN'
        simp only [List.length_nil] at hlenN'
        omega
      · omega
    constructor
    · rw [gapDecode_length (tagRec none rule) (a.map Int.toNat) 0
        (totalSlotsOf L rule).toNat hlenN hpsN hbdN]
      rw [tagRec_length, sumCountsT_tagRec]
      have hsames : samesT (tagRec none rule) = samesCount none rule := rfl
      rw [hsames]
      have hslots : totalSlotsOf L rule
          = (L : Int) - samesCount none rule - sumCounts rule + rule.length := rfl
      omega
    · intro hcnt hval
      exact gapDecode_runs rule (a.map Int.toNat) none 0 (totalSlotsOf L rule).toNat
        (by rw [List.length_map, halen]) hpsN hbdN hcnt hval

theorem leadCount_decomp (v : Int) :
    ∀ l : List Int,
      l = List.replicate (leadCount v l) v ++ l.drop (leadCount v l) ∧
      (∀ c, (l.drop (leadCount v l)).head? = some c → c ≠ v) := by
  intro l
  induction l with
  | nil => exact ⟨rfl, by intro c hc; simp at hc⟩
  | cons c rest ih =>
    by_cases hc : c = v
    · subst hc
      rw [leadCount, if_pos rfl]
      constructor
      · rw [List.replicate_succ, List.cons_append]
        show c :: rest = c :: (List.replicate (leadCount c rest) c
          ++ rest.drop (leadCount c rest))
        rw [← ih.1]
      · intro d hd
        exact ih.2 d hd
    · rw [leadCount, if_neg hc]
      exact ⟨rfl, by
        intro d hd
        simp only [List.drop_zero, List.head?_cons, Option.some.injEq] at hd
        rw [hd] at hc
        exact hc⟩

theorem runsOfAux_ne_nil : ∀ (l : List Int) (p : Int × Nat), runsOfAux l (some p) ≠ [] := by
  intro l
  induction l with
  | nil => intro p h; exact List.noConfusion h
  | cons c rest ih =>
    intro p
    rw [runsOfAux]
    by_cases hc : (c == p.1) = true
    · rw [if_pos hc]
      exact ih (p.1, p.2 + 1)
    · rw [if_neg hc]
      intro h
      exact List.noConfusion h

theorem runsOf_all_blanks :
    ∀ l : List Int, (∀ c ∈ l, -1 ≤ c) → runsOf l = [] →
      l = List.replicate l.length (-1) := by
  intro l
  induction l with
  | nil => intro _ _; rfl
  | cons c rest ih =>
    intro hge hruns
    rw [runsOf, runsOfAux] at hruns
    by_cases hc : c < 0
    · rw [if_pos hc] at hruns
      have hc1 : c = -1 := by have := hge c (by simp); omega
      rw [List.length_cons, List.replicate_succ, hc1]
      rw [ih (fun d hd => hge d (by simp [hd])) hruns]
      rw [List.length_replicate]
    · rw [if_neg hc] at hruns
      exact absurd hruns (runsOfAux_ne_nil rest (c, 1))

theorem samesCount_cons (prev : Option Int) (r : RuleEntry) (rs : List RuleEntry) :
    samesCount prev (r :: rs)
      = (if (prev == some r.val) = true then 1 else 0) + samesCount (some r.val) rs := by
  show samesT (tagRec prev (r :: rs)) = _
  rw [tagRec, samesT_cons]
  rfl

theorem runsOf_cons_decomp (l : List Int) (n : Nat) (v : Int) (rr : List (Nat × Int))
    (hge : ∀ c ∈ l, -1 ≤ c) (hruns : runsOf l = (n, v) :: rr) :
    ∃ l2 : List Int,
      l = List.replicate (leadCount (-1) l) (-1) ++ List.replicate n v ++ l2 ∧
      0 ≤ v ∧ 1 ≤ n ∧ runsOf l2 = rr ∧
      (∀ c, l2.head? = some c → c ≠ v) ∧ (∀ c ∈ l2, -1 ≤ c) ∧
      l.length = leadCount (-1) l + n + l2.length := by
  obtain ⟨hdec, hhead⟩ := leadCount_decomp (-1) l
  set g := leadCount (-1) l with hg
  cases hl1 : l.drop g with
  | nil =>
    exfalso
    rw [hl1] at hdec
    rw [hdec] at hruns
    simp only [List.append_nil] at hruns
    rw [runsOf_replicate_blanks] at hruns
    exact List.noConfusion hruns
  | cons c0 l1' =>
    have hc0mem : c0 ∈ l := List.drop_subset g l (by rw [hl1]; simp)
    have hc0ne : c0 ≠ -1 := hhead c0 (by rw [hl1]; rfl)
    have hc0ge : 0 ≤ c0 := by have := hge c0 hc0mem; omega
    obtain ⟨hdec2, hhead2⟩ := leadCount_decomp c0 l1'
    set k := leadCount c0 l1' with hk
    set l2 := l1'.drop k with hl2
    have hruns2 : runsOf l = (1 + k, c0) :: runsOf l2 := by
      rw [runsOf]
      conv_lhs => rw [hdec, hl1]
      rw [runsOfAux_blanks, runsOfAux, if_neg (by omega)]
      conv_lhs => rw [hdec2]
      rw [runsOfAux_merge, runsOfAux_flush c0 (1 + k) l2 (fun c hc h => hhead2 c hc h)]
      rfl
    rw [hruns] at hruns2
    injection hruns2 with hpair hrest
    injection hpair with hn hv
    have hrr : runsOf l2 = rr := hrest.symm
    refine ⟨l2, ?_, by omega, by omega, hrr, ?_, ?_, ?_⟩
    · conv_lhs => rw [hdec, hl1]
      rw [hn, hv, List.append_assoc]
      congr 1
      rw [show (1 + k) = k + 1 from by omega, List.replicate_succ, List.cons_append]
      congr 1
    · intro c hc
      rw [← hv] at hhead2
      exact fun h => hhead2 c hc h
    · intro c hc
      have : c ∈ l1' := List.drop_subset k l1' hc
      have : c ∈ l := by
        refine List.drop_subset g l ?_
        rw [hl1]
        simp [this]
      exact hge c this
    · have h1 : l.length = g + (c0 :: l1').length := by
        conv_lhs => rw [hdec, hl1]
        rw [List.length_append, List.length_replicate]
      have h2 : l1'.length = k + l2.length := by
        conv_lhs => rw [hdec2]
        rw [List.length_append, List.length_replicate]
      simp only [List.length_cons] at h1
      omega

theorem sumCounts_cons (r : RuleEntry) (rs : List RuleEntry) :
    sumCounts (r :: rs) = r.count + sumCounts rs := by
  simp [sumCounts]

theorem gapDecode_complete :
    ∀ (rule : List RuleEntry) (l : List Int) (prev : Option Int) (o : Nat),
      (∀ c ∈ l, -1 ≤ c) →
      runsOf l = ruleRuns rule →
      (∀ w, prev = some w → l.head? ≠ some w) →
      sumCounts rule + samesCount prev rule ≤ l.length ∧
      (encodeArr o prev rule l).length = rule.length ∧
      (encodeArr o prev rule l).Pairwise (· < ·) ∧
      (∀ p ∈ encodeArr o prev rule l, o ≤ p ∧
        p < o + (l.length + rule.length - sumCounts rule - samesCount prev rule)) ∧
      gapDecode o (o + (l.length + rule.length - sumCounts rule - samesCount prev rule))
        (encodeArr o prev rule l) (tagRec prev rule) = l := by
  intro rule
  induction rule with
  | nil =>
    intro l prev o hge hruns _
    have hl : l = List.replicate l.length (-1) := runsOf_all_blanks l hge hruns
    refine ⟨by simp [sumCounts, samesCount, tagRec, samesT], rfl, List.Pairwise.nil, ?_, ?_⟩
    · intro p hp
      exact absurd hp (by simp [encodeArr])
    · rw [encodeArr, gapDecode]
      conv_rhs => rw [hl]
      congr 1
      have h0 : sumCounts ([] : List RuleEntry) = 0 := rfl
      have h1 : samesCount prev ([] : List RuleEntry) = 0 := rfl
      simp only [List.length_nil, h0, h1]
      omega
  | cons r rs ih =>
    intro l prev o hge hruns hh
    rw [show ruleRuns (r :: rs) = (r.count, r.val) :: ruleRuns rs from rfl] at hruns
    obtain ⟨l2, hdec, hv0, hn1, hrr, hl2head, hl2ge, hlen⟩ :=
      runsOf_cons_decomp l r.count r.val (ruleRuns rs) hge hruns
    set g := leadCount (-1) l with hg
    set same01 : Nat := if (prev == some r.val) = true then 1 else 0 with hs01
    have hg1 : same01 ≤ g := by
      by_cases hsame : (prev == some r.val) = true
      · have hprev : prev = some r.val := by simpa using hsame
        rw [hs01, if_pos hsame]
        by_contra hgl
        have hgz : g = 0 := by omega
        rw [hgz] at hdec
        simp only [List.replicate_zero, List.nil_append] at hdec
        have hhead : l.head? = some r.val := by
          rw [hdec]
          obtain ⟨m, hm⟩ : ∃ m, r.count = m + 1 := ⟨r.count - 1, by omega⟩
          rw [hm, List.replicate_succ, List.cons_append]
          rfl
        exact hh r.val hprev hhead
      · rw [hs01, if_neg hsame]
        omega
    have hdrop : l.drop (g + r.count) = l2 := by
      conv_lhs => rw [hdec]
      rw [show g + r.count
        = (List.replicate g (-1 : Int) ++ List.replicate r.count r.val).length by simp]
      exact List.drop_left _ _
    have henc : encodeArr o prev (r :: rs) l
        = (o + g - same01) :: encodeArr (o + g - same01 + 1) (some r.val) rs
            (l.drop (g + r.count)) := rfl
    rw [hdrop] at henc
    obtain ⟨ihA, ihB, ihC, ihD, ihE⟩ := ih l2 (some r.val) (o + g - same01 + 1) hl2ge hrr
      (fun w hw hhd => hl2head w hhd (by injection hw with h; rw [h]))
    have hsc : sumCounts (r :: rs) = r.count + sumCounts rs := sumCounts_cons r rs
    have hsm : samesCount prev (r :: rs) = same01 + samesCount (some r.val) rs := by
      rw [samesCount_cons, hs01]
    have hT : o + (l.length + (r :: rs).length - sumCounts (r :: rs)
          - samesCount prev (r :: rs))
        = (o + g - same01 + 1) + (l2.length + rs.length - sumCounts rs
          - samesCount (some r.val) rs) := by
      simp only [List.length_cons]
      omega
    refine ⟨?_, ?_, ?_, ?_, ?_⟩
    · rw [hsc, hsm]
      omega
    · rw [henc]
      simp [ihB]
    · rw [henc]
      refine List.pairwise_cons.mpr ⟨?_, ihC⟩
      intro q hq
      have := (ihD q hq).1
      omega
    · rw [henc]
      intro q hq
      rcases List.mem_cons.mp hq with rfl | hq
      · refine ⟨by omega, ?_⟩
        simp only [List.length_cons]
        omega
      · obtain ⟨h1, h2⟩ := ihD q hq
        rw [hT]
        exact ⟨by omega, h2⟩
    · rw [henc, hT]
      rw [show tagRec prev (r :: rs)
        = TaggedEntry.mk r.count r.val (prev == some r.val) :: tagRec (some r.val) rs
        from rfl]
      rw [gapDecode, ihE]
      have hgoal : List.replicate (o + g - same01 - o) (-1 : Int)
          ++ runBlock (TaggedEntry.mk r.count r.val (prev == some r.val))
          = List.replicate g (-1 : Int) ++ List.replicate r.count r.val := by
        by_cases hsame : (prev == some r.val) = true
        · have hs1 : same01 = 1 := by rw [hs01, if_pos hsame]
          have hblock : runBlock (TaggedEntry.mk r.count r.val (prev == some r.val))
              = (-1 : Int) :: List.replicate r.count r.val := by
            rw [runBlock]
            simp [hsame]
          rw [hblock, List.append_cons]
          rw [show o + g - same01 - o = g - 1 from by omega]
          congr 1
          rw [show ([(-1 : Int)]) = List.replicate 1 (-1 : Int) from rfl,
            ← List.replicate_add]
          congr 1
          omega
        · have hs0 : same01 = 0 := by rw [hs01, if_neg hsame]
          have hblock : runBlock (TaggedEntry.mk r.count r.val (prev == some r.val))
              = List.replicate r.count r.val := by
            rw [runBlock]
            simp [hsame]
          rw [hblock, show o + g - same01 - o = g from by omega]
      rw [hgoal, hdec]

theorem leadCount_replicate_append (v : Int) :
    ∀ (n : Nat) (l : List Int), leadCount v (List.replicate n v ++ l) = n + leadCount v l := by
  intro n
  induction n with
  | zero => intro l; simp
  | succ m ih =>
    intro l
    rw [List.replicate_succ, List.cons_append, leadCount, if_pos rfl, ih]
    omega

theorem leadCount_of_head_ne (v c : Int) (l : List Int) (hne : ¬(c = v)) :
    leadCount v (c :: l) = 0 := by
  rw [leadCount, if_neg hne]

theorem encode_gapDecode :
    ∀ (rule : List RuleEntry) (ps : List Nat) (prev : Option Int) (o T : Nat),
      ps.length = rule.length → ps.Pairwise (· < ·) → (∀ p ∈ ps, o ≤ p ∧ p < T) →
      (∀ r ∈ rule, 1 ≤ r.count) → (∀ r ∈ rule, 0 ≤ r.val) →
      encodeArr o prev rule (gapDecode o T ps (tagRec prev rule)) = ps := by
  intro rule
  induction rule with
  | nil =>
    intro ps prev o T hlen _ _ _ _
    match ps, hlen with
    | [], _ => rfl
  | cons r rs ih =>
    intro ps prev o T hlen hpw hbd hcnt hval
    match ps, hlen with
    | p :: ps', hlen =>
      have hlen' : ps'.length = rs.length := by simpa using hlen
      have hple := List.pairwise_cons.mp hpw
      have hbd' : ∀ q ∈ ps', p + 1 ≤ q ∧ q < T :=
        fun q hq => ⟨by have := hple.1 q hq; omega, (hbd q (by simp [hq])).2⟩
      obtain ⟨hop, hpT⟩ := hbd p (by simp)
      have hrv : 0 ≤ r.val := hval r (by simp)
      have hrc : 1 ≤ r.count := hcnt r (by simp)
      have hvalne : ¬((r.val : Int) = -1) := by omega
      have hcnt' : ∀ e ∈ rs, 1 ≤ e.count := fun e he => hcnt e (by simp [he])
      have hval' : ∀ e ∈ rs, 0 ≤ e.val := fun e he => hval e (by simp [he])
      obtain ⟨m, hm⟩ : ∃ m, r.count = m + 1 := ⟨r.count - 1, by omega⟩
      set same01 : Nat := if (prev == some r.val) = true then 1 else 0 with hs01
      set rest := gapDecode (p + 1) T ps' (tagRec (some r.val) rs) with hrest
      set D := gapDecode o T (p :: ps') (tagRec prev (r :: rs)) with hD
      have hdecEq : D
          = (List.replicate (p - o) (-1 : Int)
              ++ runBlock (TaggedEntry.mk r.count r.val (prev == some r.val))) ++ rest := by
        rw [hD, show tagRec prev (r :: rs)
          = TaggedEntry.mk r.count r.val (prev == some r.val) :: tagRec (some r.val) rs
          from rfl, gapDecode]
      have hleadrun : leadCount (-1) (runBlock
          (TaggedEntry.mk r.count r.val (prev == some r.val)) ++ rest) = same01 := by
        by_cases hsame : (prev == some r.val) = true
        · have hblock : runBlock (TaggedEntry.mk r.count r.val (prev == some r.val))
              = (-1 : Int) :: List.replicate r.count r.val := by
            rw [runBlock]
            simp [hsame]
          rw [hblock, List.cons_append, leadCount, if_pos rfl, hm, List.replicate_succ,
            List.cons_append, leadCount_of_head_ne _ _ _ hvalne, hs01, if_pos hsame]
        · have hblock : runBlock (TaggedEntry.mk r.count r.val (prev == some r.val))
              = List.replicate r.count r.val := by
            rw [runBlock]
            simp [hsame]
          rw [hblock, hm, List.replicate_succ, List.cons_append,
            leadCount_of_head_ne _ _ _ hvalne, hs01, if_neg hsame]
      have hlead : leadCount (-1) D = (p - o) + same01 := by
        rw [hdecEq, List.append_assoc, leadCount_replicate_append, hleadrun]
      have hdropD : D.drop (leadCount (-1) D + r.count) = rest := by
        rw [hlead, hdecEq]
        rw [show (p - o) + same01 + r.count
          = (List.replicate (p - o) (-1 : Int)
              ++ runBlock (TaggedEntry.mk r.count r.val (prev == some r.val))).length from by
            rw [List.length_append, List.length_replicate, runBlock_length]
            dsimp only
            rw [hs01]
            omega]
        exact List.drop_left _ _
      have hEnc : encodeArr o prev (r :: rs) D
          = (o + leadCount (-1) D - same01)
            :: encodeArr (o + leadCount (-1) D - same01 + 1) (some r.val) rs
              (D.drop (leadCount (-1) D + r.count)) := rfl
      rw [hEnc, hdropD, hlead]
      rw [show o + ((p - o) + same01) - same01 = p from by omega]
      rw [hrest, ih ps' (some r.val) (p + 1) T hlen' hple.2 hbd' hcnt' hval']

theorem lex_lt_irrefl : ∀ a : List Int, ¬ List.Lex (· < ·) a a := by
  intro a
  induction a with
  | nil => intro h; cases h
  | cons x l ih =>
    intro h
    cases h with
    | cons h' => exact ih h'
    | rel h' => exact lt_irrefl x h'

theorem map_cast_toNat : ∀ ps : List Nat,
    (ps.map (fun n : Nat => (n : Int))).map Int.toNat = ps := by
  intro ps
  induction ps with
  | nil => rfl
  | cons p ps ih => simp [ih]

theorem map_toNat_cast : ∀ a : List Int, (∀ p ∈ a, 0 ≤ p) →
    (a.map Int.toNat).map (fun n : Nat => (n : Int)) = a := by
  intro a
  induction a with
  | nil => intro _; rfl
  | cons p ps ih =>
    intro h
    simp only [List.map_cons, List.cons.injEq]
    exact ⟨Int.toNat_of_nonneg (h p (by simp)), ih (fun q hq => h q (by simp [hq]))⟩

theorem generateLineSolns_complete (L : Nat) (rule : Rule) (l : Line)
    (hlen : l.length = L) (hge : ∀ c ∈ l, -1 ≤ c)
    (hruns : runsOf l = ruleRuns rule) :
    l ∈ generateLineSolns L rule := by
  by_cases hne : rule.length = 0
  · have hr : rule = [] := List.length_eq_zero.mp hne
    subst hr
    have hbl : l = List.replicate l.length (-1) := runsOf_all_blanks l hge hruns
    show l ∈ [count L (fun _ => (-1 : Int))]
    rw [List.mem_singleton, count_const, ← hlen]
    exact hbl
  · obtain ⟨cA, cB, cC, cD, cE⟩ := gapDecode_complete rule l none 0 hge hruns
      (fun w hw => Option.noConfusion hw)
    set enc := encodeArr 0 none rule l with hencdef
    have hslots : totalSlotsOf L rule
        = (L : Int) - samesCount none rule - sumCounts rule + rule.length := rfl
    have hSM : sumCounts rule + samesCount none rule ≤ L := by rw [← hlen]; exact cA
    have htoNat : (totalSlotsOf L rule).toNat
        = L + rule.length - sumCounts rule - samesCount none rule := by
      rw [hslots]
      omega
    have hT0 : 0 + (l.length + rule.length - sumCounts rule - samesCount none rule)
        = (totalSlotsOf L rule).toNat := by
      rw [htoNat, hlen]
      omega
    rw [generateLineSolns_eq L rule hne, List.mem_map]
    refine ⟨enc.map (fun n : Nat => (n : Int)), ?_, ?_⟩
    · refine choose_complete (totalSlotsOf L rule) rule.length 0 _ ?_ ?_ ?_ ?_
      · rw [List.length_map, cB]
      · cases rule with
        | nil => exact absurd rfl hne
        | cons x xs => simp
      · rw [List.pairwise_map]
        exact cC.imp_of_mem (fun _ _ h => by omega)
      · intro q hq
        rw [List.mem_map] at hq
        obtain ⟨n, hn, rfl⟩ := hq
        obtain ⟨h1, h2⟩ := cD n hn
        rw [hT0] at h2
        exact ⟨by omega, by omega⟩
    · have hpw : (enc.map (fun n : Nat => (n : Int))).Pairwise (· < ·) := by
        rw [List.pairwise_map]
        exact cC.imp_of_mem (fun _ _ h => by omega)
      have hbd : ∀ p ∈ enc.map (fun n : Nat => (n : Int)),
          0 ≤ p ∧ p < totalSlotsOf L rule := by
        intro q hq
        rw [List.mem_map] at hq
        obtain ⟨n, hn, rfl⟩ := hq
        obtain ⟨h1, h2⟩ := cD n hn
        rw [hT0] at h2
        refine ⟨by omega, ?_⟩
        have : ((totalSlotsOf L rule).toNat : Int) ≤ totalSlotsOf L rule := by
          rw [hslots]
          omega
        omega
      have hlenle : (enc.map (fun n : Nat => (n : Int))).length ≤ (tagRec none rule).length := by
        rw [List.length_map, cB, tagRec_length]
      rw [decodeArrangement_eq (totalSlotsOf L rule) (tagRec none rule) _ hpw hbd hlenle]
      rw [map_cast_toNat]
      rw [← hT0]
      exact cE

theorem generateLineSolns_nodup (L : Nat) (rule : Rule)
    (hcnt : ∀ r ∈ rule, 1 ≤ r.count) (hval : ∀ r ∈ rule, 0 ≤ r.val) :
    (generateLineSolns L rule).Nodup := by
  by_cases hne : rule.length = 0
  · have hr : rule = [] := List.length_eq_zero.mp hne
    subst hr
    exact List.nodup_singleton _
  · rw [generateLineSolns_eq L rule hne]
    refine List.Nodup.map_on ?_ ?_
    · intro a1 h1 a2 h2 heq
      obtain ⟨len1, pw1, bd1⟩ := choose_sound (totalSlotsOf L rule) rule.length 0 a1 h1
      obtain ⟨len2, pw2, bd2⟩ := choose_sound (totalSlotsOf L rule) rule.length 0 a2 h2
      have hd1 := decodeArrangement_eq (totalSlotsOf L rule) (tagRec none rule) a1 pw1
        (fun p hp => bd1 p hp) (by rw [len1, tagRec_length])
      have hd2 := decodeArrangement_eq (totalSlotsOf L rule) (tagRec none rule) a2 pw2
        (fun p hp => bd2 p hp) (by rw [len2, tagRec_length])
      rw [hd1, hd2] at heq
      have hbN : ∀ (a : List Int), (∀ p ∈ a, 0 ≤ p ∧ p < totalSlotsOf L rule) →
          ∀ q ∈ a.map Int.toNat, 0 ≤ q ∧ q < (totalSlotsOf L rule).toNat := by
        intro a hb q hq
        rw [List.mem_map] at hq
        obtain ⟨z, hz, rfl⟩ := hq
        have := hb z hz
        omega
      have he1 := encode_gapDecode rule (a1.map Int.toNat) none 0
        (totalSlotsOf L rule).toNat (by rw [List.length_map, len1])
        (toNat_pairwise pw1 (fun p hp => (bd1 p hp).1))
        (hbN a1 bd1) hcnt hval
      have he2 := encode_gapDecode rule (a2.map Int.toNat) none 0
        (totalSlotsOf L rule).toNat (by rw [List.length_map, len2])
        (toNat_pairwise pw2 (fun p hp => (bd2 p hp).1))
        (hbN a2 bd2) hcnt hval
      have hmapeq : a1.map Int.toNat = a2.map Int.toNat := by
        rw [← he1, ← he2, heq]
      calc a1 = (a1.map Int.toNat).map (fun n : Nat => (n : Int)) :=
            (map_toNat_cast a1 (fun p hp => (bd1 p hp).1)).symm
        _ = (a2.map Int.toNat).map (fun n : Nat => (n : Int)) := by rw [hmapeq]
        _ = a2 := map_toNat_cast a2 (fun p hp => (bd2 p hp).1)
    · refine (choose_pairwise_lex (totalSlotsOf L rule) rule.length 0).imp ?_
      intro a b h he
      rw [he] at h
      exact lex_lt_irrefl b h

/-- C5 (amended): for every line length `L` and every clue whose runs
have positive lengths and nonnegative color ids, `generateLineSolns`
returns exactly `C(totalSlots, nGroups)` lines (with
`totalSlots = L - mandatorySpaces - sumColored + nGroups`), without
duplicates and without omissions, the underlying combinatorial choices
being enumerated in lexicographic order; every produced line has exactly
`L` cells and parses back to exactly the clue's runs. -/
theorem generateLineSolns_correct (L : Nat) (rule : Rule)
    (hcnt : ∀ r ∈ rule, 1 ≤ r.count) (hval : ∀ r ∈ rule, 0 ≤ r.val) :
    (generateLineSolns L rule).length
        = Nat.choose (totalSlotsOf L rule).toNat rule.length ∧
    (generateLineSolns L rule).Nodup ∧
    (∀ l ∈ generateLineSolns L rule, l.length = L ∧ runsOf l = ruleRuns rule) ∧
    (∀ l : Line, l.length = L → (∀ c ∈ l, -1 ≤ c) → runsOf l = ruleRuns rule →
      l ∈ generateLineSolns L rule) ∧
    List.Pairwise (List.Lex (· < ·)) (choose (totalSlotsOf L rule) rule.length 0) := by
  refine ⟨?_, generateLineSolns_nodup L rule hcnt hval, ?_, ?_, choose_pairwise_lex _ _ _⟩
  · by_cases hne : rule.length = 0
    · have hr : rule = [] := List.length_eq_zero.mp hne
      subst hr
      have h1 : (generateLineSolns L ([] : Rule)).length = 1 := rfl
      have h2 : totalSlotsOf L ([] : Rule) = (L : Int) := by
        rw [show totalSlotsOf L ([] : Rule)
          = (L : Int) - samesCount none [] - sumCounts [] + ([] : Rule).length from rfl]
        simp [samesCount, sumCounts, samesT, tagRec]
      rw [h1, h2]
      simp [Int.toNat_natCast]
    · rw [generateLineSolns_eq L rule hne, List.length_map,
        choose_length (totalSlotsOf L rule) rule.length 0 (by omega), Int.sub_zero]
  · intro l hl
    obtain ⟨h1, h2⟩ := generateLineSolns_mem_props L rule l hl
    exact ⟨h1, h2 hcnt hval⟩
  · intro l h1 h2 h3
    exact generateLineSolns_complete L rule l h1 h2 h3

/-- C5 as literally stated is false: a clue with a zero-length run
(`count = 0`, nonnegative color id) makes `generateLineSolns` return
duplicate lines — for line length 1 and clue `[{count:0,val:1}]` it
returns `[[-1],[-1]]`, the all-blank line twice. -/
theorem generateLineSolns_duplicate_lines :
    generateLineSolns 1 [RuleEntry.mk 0 1] = [[-1], [-1]] ∧
    ¬ (generateLineSolns 1 [RuleEntry.mk 0 1]).Nodup := by
  refine ⟨by rfl, by decide⟩

/-- Witness for the amended C5 at a concrete clue. -/
theorem generateLineSolns_correct_witness :
    (generateLineSolns 2 [RuleEntry.mk 1 1]).length
        = Nat.choose (totalSlotsOf 2 [RuleEntry.mk 1 1]).toNat 1 ∧
    (generateLineSolns 2 [RuleEntry.mk 1 1]).Nodup ∧
    (∀ l ∈ generateLineSolns 2 [RuleEntry.mk 1 1],
      l.length = 2 ∧ runsOf l = ruleRuns [RuleEntry.mk 1 1]) ∧
    (∀ l : Line, l.length = 2 → (∀ c ∈ l, -1 ≤ c) →
      runsOf l = ruleRuns [RuleEntry.mk 1 1] →
      l ∈ generateLineSolns 2 [RuleEntry.mk 1 1]) ∧
    List.Pairwise (List.Lex (· < ·)) (choose (totalSlotsOf 2 [RuleEntry.mk 1 1]) 1 0) :=
  generateLineSolns_correct 2 [RuleEntry.mk 1 1] (by decide) (by decide)

theorem count_length {α : Type} (n : Nat) (f : Nat → α) : (count n f).length = n := by
  rw [count, List.length_map, List.length_range]

theorem count_get? {α : Type} (n : Nat) (f : Nat → α) (i : Nat) :
    (count n f).get? i = if i < n then some (f i) else none := by
  rw [count]
  by_cases h : i < n
  · rw [if_pos h, List.get?_map, List.get?_range h]
    rfl
  · rw [if_neg h]
    apply List.get?_eq_none.mpr
    rw [List.length_map, List.length_range]
    omega

theorem get?_getD : ∀ (l : List Int) (i : Nat), i < l.length →
    l.get? i = some (l.getD i 0) := by
  intro l
  induction l with
  | nil => intro i h; simp at h
  | cons c rest ih =>
    intro i h
    cases i with
    | zero => rfl
    | succ j =>
      have hj : j < rest.length := by simpa using h
      exact ih j hj

theorem findValidMoves_mem {lines : List Line} {idxs : List Nat}
    {mapper : Nat → Int → Move} {ms : List Move}
    (h : findValidMoves lines idxs mapper = some ms) :
    ∀ m ∈ ms, ∃ i v, m = mapper i v ∧ ∀ sl ∈ lines, sl.get? i = some v := by
  intro m hm
  match lines, h with
  | l0 :: rest, h =>
    rw [findValidMoves] at h
    injection h with h
    rw [← h] at hm
    rw [List.mem_filterMap] at hm
    obtain ⟨i, hir, hcond⟩ := hm
    rw [List.mem_range] at hir
    by_cases hin : idxs.contains i
    · rw [if_pos hin] at hcond
      by_cases hall : (l0 :: rest).all (fun n => n.get? i == l0.get? i)
      · rw [if_pos hall] at hcond
        injection hcond with hcond
        refine ⟨i, l0.getD i 0, hcond.symm, ?_⟩
        intro sl hsl
        have h1 : (sl.get? i == l0.get? i) = true := (List.all_eq_true.mp hall) sl hsl
        have h2 : l0.get? i = some (l0.getD i 0) := get?_getD l0 i hir
        rw [eq_of_beq h1, h2]
      · rw [if_neg hall] at hcond
        exact absurd hcond (by simp)
    · rw [if_neg hin] at hcond
      exact absurd hcond (by simp)

theorem rowLineOf_get? (sol : Nat → Nat → Int) (w x i : Nat) :
    (rowLineOf sol w x).get? i = if i < w then some (sol x i) else none := by
  rw [rowLineOf, count_get?]

theorem colLineOf_get? (sol : Nat → Nat → Int) (h y i : Nat) :
    (colLineOf sol h y).get? i = if i < h then some (sol i y) else none := by
  rw [colLineOf, count_get?]

theorem findMovesFromRow_sound (sol : Nat → Nat → Int) (w x : Nat)
    (idxs : List Nat) (solns : List Line) (ms : List Move)
    (hmem : rowLineOf sol w x ∈ solns)
    (h : findMovesFromRow x idxs solns = some ms) :
    ∀ m ∈ ms, m.x = x ∧ m.y < w ∧ sol m.x m.y = m.next := by
  intro m hm
  obtain ⟨i, v, rfl, hall⟩ := findValidMoves_mem h m hm
  have hline := hall _ hmem
  rw [rowLineOf_get?] at hline
  by_cases hiw : i < w
  · rw [if_pos hiw] at hline
    injection hline with hline
    exact ⟨rfl, hiw, hline⟩
  · rw [if_neg hiw] at hline
    exact absurd hline (by simp)

theorem findMovesFromCol_sound (sol : Nat → Nat → Int) (h' y : Nat)
    (idxs : List Nat) (solns : List Line) (ms : List Move)
    (hmem : colLineOf sol h' y ∈ solns)
    (h : findMovesFromCol y idxs solns = some ms) :
    ∀ m ∈ ms, m.y = y ∧ m.x < h' ∧ sol m.x m.y = m.next := by
  intro m hm
  obtain ⟨i, v, rfl, hall⟩ := findValidMoves_mem h m hm
  have hline := hall _ hmem
  rw [colLineOf_get?] at hline
  by_cases hih : i < h'
  · rw [if_pos hih] at hline
    injection hline with hline
    exact ⟨rfl, hih, hline⟩
  · rw [if_neg hih] at hline
    exact absurd hline (by simp)

theorem collectMoves_sound {f : LineState → Option (List Move)} {Q : Move → Prop} :
    ∀ (entries : List LineState) (ms : List Move),
      collectMoves f entries = some ms →
      (∀ e ∈ entries, ∀ ems, f e = some ems → ∀ m ∈ ems, Q m) →
      ∀ m ∈ ms, Q m := by
  intro entries
  induction entries with
  | nil =>
    intro ms h _
    rw [collectMoves] at h
    injection h with h
    rw [← h]
    intro m hm
    exact absurd hm (by simp)
  | cons e rest ih =>
    intro ms h hQ
    rw [collectMoves] at h
    cases hfe : f e with
    | none => rw [hfe] at h; exact absurd h (by simp)
    | some ems =>
      rw [hfe] at h
      cases hrest : collectMoves f rest with
      | none => rw [hrest] at h; exact absurd h (by simp)
      | some tail =>
        rw [hrest] at h
        injection h with h
        rw [← h]
        intro m hm
        rcases List.mem_append.mp hm with hm | hm
        · exact hQ e (by simp) ems hfe m hm
        · exact ih tail hrest (fun e' he' => hQ e' (by simp [he'])) m hm

theorem applyMovesGo_subset :
    ∀ (moves : List Move) (b : Board) (acc : List Move),
      ∀ m ∈ (applyMovesGo moves b acc).1, m ∈ acc ∨ m ∈ moves := by
  intro moves
  induction moves with
  | nil =>
    intro b acc m hm
    rw [applyMovesGo] at hm
    left
    exact (List.mem_reverse).mp hm
  | cons mv rest ih =>
    intro b acc m hm
    rw [applyMovesGo] at hm
    cases hrow : b.get? mv.x with
    | none =>
      rw [hrow] at hm
      left
      exact (List.mem_reverse).mp hm
    | some row =>
      rw [hrow] at hm
      dsimp only at hm
      cases hcell : row.get? mv.y with
      | none =>
        rw [hcell] at hm
        rcases ih b acc m hm with h | h
        · left; exact h
        · right; simp [h]
      | some v =>
        rw [hcell] at hm
        dsimp only at hm
        by_cases hv : v == 0
        · rw [if_pos hv] at hm
          rcases ih _ (mv :: acc) m hm with h | h
          · rcases List.mem_cons.mp h with rfl | h
            · right; simp
            · left; exact h
          · right; simp [h]
        · rw [if_neg hv] at hm
          rcases ih b acc m hm with h | h
          · left; exact h
          · right; simp [h]

theorem pruneByMoves_keeps (dim : Move → Nat) (solns : List Line) (moves : List Move)
    (l : Line) (hl : l ∈ solns)
    (hmoves : ∀ m ∈ moves, l.get? (dim m) = some m.next) :
    l ∈ (pruneByMoves dim solns moves).1 := by
  show l ∈ solns.filter _
  rw [List.mem_filter]
  refine ⟨hl, ?_⟩
  rw [List.all_eq_true]
  intro m hm
  rw [hmoves m hm]
  simp

theorem pruneByColors_keeps (solns : List Line) (allowed : List (Option Int)) (i : Nat)
    (l : Line) (hl : l ∈ solns) (ha : l.get? i ∈ allowed) :
    l ∈ (pruneByColors solns allowed i).1 := by
  show l ∈ solns.filter _
  rw [List.mem_filter]
  exact ⟨hl, (contains_iff_mem _ _).mpr ha⟩

theorem processLines_inv {P : LineState → Prop}
    {pf : Nat → List Line → List Line × Nat}
    {mke : Nat → List Nat → SolveErr}
    (hP : ∀ e, P e → P (LineState.mk e.idx (pf e.idx e.solns).1)) :
    ∀ (pend kept : List LineState) (r p : Nat)
      (out : List LineState) (r' p' : Nat),
      processLines pf mke pend kept r p = .ok (out, r', p') →
      (∀ e ∈ pend, P e) → (∀ e ∈ kept, P e) → ∀ e ∈ out, P e := by
  intro pend
  induction pend with
  | nil =>
    intro kept r p out r' p' h _ hkept
    rw [processLines] at h
    injection h with h
    injection h with h1 h2
    rw [← h1]
    intro e he
    exact hkept e (List.mem_reverse.mp he)
  | cons e0 rest ih =>
    intro kept r p out r' p' h hpend hkept
    rw [processLines] at h
    by_cases hsolved : isLineSolved e0.solns
    · rw [if_pos (by simpa using hsolved)] at h
      exact ih kept (r + 1) (p + 1) out r' p' h
        (fun e he => hpend e (by simp [he])) hkept
    · rw [if_neg (by simpa using hsolved)] at h
      by_cases hconf : isLineConflict e0.solns
      · rw [if_pos (by simpa using hconf)] at h
        exact absurd h (by simp)
      · rw [if_neg (by simpa using hconf)] at h
        refine ih _ r _ out r' p' h (fun e he => hpend e (by simp [he])) ?_
        intro e he
        rcases List.mem_cons.mp he with rfl | he
        · exact hP e0 (hpend e0 (by simp))
        · exact hkept e he

theorem updateSolns_mem (m : List LineState) (i : Nat) (s : List Line) :
    ∀ e' ∈ updateSolns m i s,
      (∃ e ∈ m, e' = e ∧ (e.idx == i) = false) ∨
      (∃ e ∈ m, e' = LineState.mk e.idx s ∧ (e.idx == i) = true) := by
  intro e' he'
  rw [updateSolns, List.mem_map] at he'
  obtain ⟨e, he, hmap⟩ := he'
  by_cases hb : (e.idx == i) = true
  · right
    refine ⟨e, he, ?_, hb⟩
    rw [← hmap, if_pos hb]
  · left
    refine ⟨e, he, ?_, by simpa using hb⟩
    rw [← hmap, if_neg hb]

theorem arcCell_inv (sol : Nat → Nat → Int) (w h : Nat) (x y : Nat)
    (rm cm : List LineState) (pr : Nat)
    (st' : List LineState × List LineState × Nat)
    (hx : x < h) (hy : y < w)
    (hInv : mapsInv sol w h rm cm)
    (harc : arcCell x y rm cm pr = some st') :
    mapsInv sol w h st'.1 st'.2.1 := by
  rw [arcCell] at harc
  cases hce : cm.find? (fun e => e.idx == y) with
  | none => rw [hce] at harc; exact absurd harc (by simp)
  | some ce =>
    cases hre : rm.find? (fun e => e.idx == x) with
    | none => rw [hce, hre] at harc; exact absurd harc (by simp)
    | some re =>
      rw [hce, hre] at harc
      dsimp only at harc
      injection harc with harc
      have hcemem : ce ∈ cm := List.mem_of_find?_eq_some hce
      have hremem : re ∈ rm := List.mem_of_find?_eq_some hre
      have hceidx : ce.idx = y := by
        have := List.find?_some hce
        simpa using this
      have hreidx : re.idx = x := by
        have := List.find?_some hre
        simpa using this
      have hcol := (hInv.2 ce hcemem).2
      have hrow := (hInv.1 re hremem).2
      rw [hceidx] at hcol
      rw [hreidx] at hrow
      have hcombined : some (sol x y) ∈ setIntersection
          (getPossibleColors ce.solns x) (getPossibleColors re.solns y) := by
        refine mem_setIntersection.mpr ⟨?_, ?_⟩
        · refine mem_getPossibleColors.mpr ⟨colLineOf sol h y, hcol, ?_⟩
          rw [colLineOf_get?, if_pos hx]
        · refine mem_getPossibleColors.mpr ⟨rowLineOf sol w x, hrow, ?_⟩
          rw [rowLineOf_get?, if_pos hy]
      rw [← harc]
      constructor
      · intro e' he'
        rcases updateSolns_mem _ _ _ e' he' with ⟨e, he, heq, _⟩ | ⟨e, he, heq, hbeq⟩
        · rw [heq]
          exact hInv.1 e he
        · have heidx : e.idx = x := by simpa using hbeq
          rw [heq]
          refine ⟨by rw [heidx]; exact hx, ?_⟩
          show rowLineOf sol w e.idx ∈ _
          rw [heidx]
          refine pruneByColors_keeps _ _ _ _ hrow ?_
          rw [rowLineOf_get?, if_pos hy]
          exact hcombined
      · intro e' he'
        rcases updateSolns_mem _ _ _ e' he' with ⟨e, he, heq, _⟩ | ⟨e, he, heq, hbeq⟩
        · rw [heq]
          exact hInv.2 e he
        · have heidx : e.idx = y := by simpa using hbeq
          rw [heq]
          refine ⟨by rw [heidx]; exact hy, ?_⟩
          show colLineOf sol h e.idx ∈ _
          rw [heidx]
          refine pruneByColors_keeps _ _ _ _ hcol ?_
          rw [colLineOf_get?, if_pos hx]
          exact hcombined

theorem arcRow_inv (sol : Nat → Nat → Int) (w h x : Nat) (hx : x < h) :
    ∀ (ys : List Nat) (st st' : List LineState × List LineState × Nat),
      (∀ y ∈ ys, y < w) → mapsInv sol w h st.1 st.2.1 →
      arcRow x ys st = some st' → mapsInv sol w h st'.1 st'.2.1 := by
  intro ys
  induction ys with
  | nil =>
    intro st st' _ hInv hrun
    rw [arcRow] at hrun
    injection hrun with hrun
    rw [← hrun]
    exact hInv
  | cons y ys ih =>
    intro st st' hys hInv hrun
    rw [arcRow] at hrun
    cases hc : arcCell x y st.1 st.2.1 st.2.2 with
    | none => rw [hc] at hrun; exact absurd hrun (by simp)
    | some st1 =>
      rw [hc] at hrun
      exact ih st1 st' (fun y' hy' => hys y' (by simp [hy']))
        (arcCell_inv sol w h x y st.1 st.2.1 st.2.2 st1 hx (hys y (by simp)) hInv hc) hrun

theorem arcAll_inv (sol : Nat → Nat → Int) (w h : Nat) :
    ∀ (xs ys : List Nat) (st st' : List LineState × List LineState × Nat),
      (∀ x ∈ xs, x < h) → (∀ y ∈ ys, y < w) → mapsInv sol w h st.1 st.2.1 →
      arcAll xs ys st = some st' → mapsInv sol w h st'.1 st'.2.1 := by
  intro xs
  induction xs with
  | nil =>
    intro ys st st' _ _ hInv hrun
    rw [arcAll] at hrun
    injection hrun with hrun
    rw [← hrun]
    exact hInv
  | cons x xs ih =>
    intro ys st st' hxs hys hInv hrun
    rw [arcAll] at hrun
    cases hr : arcRow x ys st with
    | none => rw [hr] at hrun; exact absurd hrun (by simp)
    | some st1 =>
      rw [hr] at hrun
      exact ih ys st1 st' (fun x' hx' => hxs x' (by simp [hx'])) hys
        (arcRow_inv sol w h x (hxs x (by simp)) ys st st1 hys hInv hr) hrun

theorem rowMoves_pkg (sol : Nat → Nat → Int) (w h : Nat) (rm cm : List LineState)
    (hInv : mapsInv sol w h rm cm) (ms : List Move) (idxs : List Nat)
    (hcm : collectMoves (fun e => findMovesFromRow e.idx idxs e.solns) rm = some ms) :
    ∀ m ∈ ms, m.x < h ∧ m.y < w ∧ sol m.x m.y = m.next := by
  refine collectMoves_sound rm ms hcm ?_
  intro e he ems hems m hm
  obtain ⟨hx, hy, hs⟩ := findMovesFromRow_sound sol w e.idx idxs e.solns ems
    (hInv.1 e he).2 hems m hm
  exact ⟨by rw [hx]; exact (hInv.1 e he).1, hy, hs⟩

theorem colMoves_pkg (sol : Nat → Nat → Int) (w h : Nat) (rm cm : List LineState)
    (hInv : mapsInv sol w h rm cm) (ms : List Move) (idxs : List Nat)
    (hcm : collectMoves (fun e => findMovesFromCol e.idx idxs e.solns) cm = some ms) :
    ∀ m ∈ ms, m.x < h ∧ m.y < w ∧ sol m.x m.y = m.next := by
  refine collectMoves_sound cm ms hcm ?_
  intro e he ems hems m hm
  obtain ⟨hy, hx, hs⟩ := findMovesFromCol_sound sol h e.idx idxs e.solns ems
    (hInv.2 e he).2 hems m hm
  exact ⟨hx, by rw [hy]; exact (hInv.2 e he).1, hs⟩

theorem newRow_keep (sol : Nat → Nat → Int) (w h : Nat) (colMoves : List Move)
    (hpkg : ∀ m ∈ colMoves, m.y < w ∧ sol m.x m.y = m.next) :
    ∀ e : LineState, (e.idx < h ∧ rowLineOf sol w e.idx ∈ e.solns) →
      (e.idx < h ∧ rowLineOf sol w e.idx
        ∈ (LineState.mk e.idx (pruneRowByMoves e.solns (movesForRow e.idx colMoves)).1).solns) := by
  intro e ⟨h1, h2⟩
  refine ⟨h1, ?_⟩
  show rowLineOf sol w e.idx ∈ (pruneByMoves (fun m => m.y) e.solns _).1
  refine pruneByMoves_keeps _ _ _ _ h2 ?_
  intro m hm
  rw [movesForRow, List.mem_filter] at hm
  obtain ⟨hmc, hmx⟩ := hm
  have hmx' : m.x = e.idx := by simpa using hmx
  obtain ⟨hyw, hs⟩ := hpkg m hmc
  rw [rowLineOf_get?, if_pos hyw, ← hmx', hs]

theorem newCol_keep (sol : Nat → Nat → Int) (w h : Nat) (rowMoves : List Move)
    (hpkg : ∀ m ∈ rowMoves, m.x < h ∧ sol m.x m.y = m.next) :
    ∀ e : LineState, (e.idx < w ∧ colLineOf sol h e.idx ∈ e.solns) →
      (e.idx < w ∧ colLineOf sol h e.idx
        ∈ (LineState.mk e.idx (pruneColByMoves e.solns (movesForCol e.idx rowMoves)).1).solns) := by
  intro e ⟨h1, h2⟩
  refine ⟨h1, ?_⟩
  show colLineOf sol h e.idx ∈ (pruneByMoves (fun m => m.x) e.solns _).1
  refine pruneByMoves_keeps _ _ _ _ h2 ?_
  intro m hm
  rw [movesForCol, List.mem_filter] at hm
  obtain ⟨hmc, hmy⟩ := hm
  have hmy' : m.y = e.idx := by simpa using hmy
  obtain ⟨hxh, hs⟩ := hpkg m hmc
  rw [colLineOf_get?, if_pos hxh, ← hmy', hs]

theorem roundStep_inv (sol : Nat → Nat → Int) (w h : Nat) (s : GenState)
    (hInv : mapsInv sol w h s.rowMap s.colMap) :
    (∀ m ∈ (roundStep s).movesOf, sol m.x m.y = m.next) ∧
    (∀ s' ys, roundStep s = .next s' ys → mapsInv sol w h s'.rowMap s'.colMap) := by
  unfold roundStep
  dsimp only
  split
  · rename_i hrm
    refine ⟨?_, ?_⟩
    · intro m hm
      simp [RoundOut.movesOf] at hm
    · intro s1 ys1 heq
      exact absurd heq (by simp)
  · rename_i rowMoves hrm
    split
    · rename_i hcmn
      refine ⟨?_, ?_⟩
      · intro m hm
        simp [RoundOut.movesOf] at hm
      · intro s1 ys1 heq
        exact absurd heq (by simp)
    · rename_i colMoves hcm
      have hrowpkg := rowMoves_pkg sol w h s.rowMap s.colMap hInv rowMoves _ hrm
      have hcolpkg := colMoves_pkg sol w h s.rowMap s.colMap hInv colMoves _ hcm
      have hapsound : ∀ m ∈ (applyMovesGo (rowMoves ++ colMoves) s.board []).1,
          sol m.x m.y = m.next := by
        intro m hm
        rcases applyMovesGo_subset _ _ _ m hm with hc | hc
        · exact absurd hc (by simp)
        · rcases List.mem_append.mp hc with hc | hc
          · exact (hrowpkg m hc).2.2
          · exact (hcolpkg m hc).2.2
      split
      · refine ⟨?_, ?_⟩
        · intro m hm
          exact hapsound m hm
        · intro s1 ys1 heq
          exact absurd heq (by simp)
      · split
        · refine ⟨?_, ?_⟩
          · intro m hm
            exact hapsound m hm
          · intro s1 ys1 heq
            exact absurd heq (by simp)
        · rename_i newRows rowRetired pruned1 hpr
          have hnewrows : ∀ e ∈ newRows, e.idx < h ∧ rowLineOf sol w e.idx ∈ e.solns := by
            refine processLines_inv ?_ s.rowMap [] 0 0 newRows rowRetired pruned1 hpr
              hInv.1 (by simp)
            exact newRow_keep sol w h colMoves
              (fun m hm => ⟨(hcolpkg m hm).2.1, (hcolpkg m hm).2.2⟩)
          split
          · refine ⟨?_, ?_⟩
            · intro m hm
              exact hapsound m hm
            · intro s1 ys1 heq
              exact absurd heq (by simp)
          · rename_i newCols colRetired pruned2 hpc
            have hnewcols : ∀ e ∈ newCols, e.idx < w ∧ colLineOf sol h e.idx ∈ e.solns := by
              refine processLines_inv ?_ s.colMap [] 0 0 newCols colRetired pruned2 hpc
                hInv.2 (by simp)
              exact newCol_keep sol w h rowMoves
                (fun m hm => ⟨(hrowpkg m hm).1, (hrowpkg m hm).2.2⟩)
            split
            · refine ⟨?_, ?_⟩
              · intro m hm
                exact hapsound m hm
              · intro s1 ys1 heq
                injection heq with h1 h2
                rw [← h1]
                exact ⟨hnewrows, hnewcols⟩
            · split
              · refine ⟨?_, ?_⟩
                · intro m hm
                  exact hapsound m hm
                · intro s1 ys1 heq
                  exact absurd heq (by simp)
              · rename_i rm2 cm2 arcPruned harc
                split
                · refine ⟨?_, ?_⟩
                  · intro m hm
                    exact hapsound m hm
                  · intro s1 ys1 heq
                    exact absurd heq (by simp)
                · refine ⟨?_, ?_⟩
                  · intro m hm
                    exact hapsound m hm
                  · intro s1 ys1 heq
                    injection heq with h1 h2
                    rw [← h1]
                    refine arcAll_inv sol w h (s.rowMap.map (fun e => e.idx))
                      (s.colMap.map (fun e => e.idx)) (newRows, newCols, 0)
                      (rm2, cm2, arcPruned) ?_ ?_ ⟨hnewrows, hnewcols⟩ harc
                    · intro x hx
                      rw [List.mem_map] at hx
                      obtain ⟨e, he, rfl⟩ := hx
                      exact (hInv.1 e he).1
                    · intro y hy
                      rw [List.mem_map] at hy
                      obtain ⟨e, he, rfl⟩ := hy
                      exact (hInv.2 e he).1

theorem runLoop_sound (sol : Nat → Nat → Int) (w h : Nat) :
    ∀ (fuel : Nat) (s : GenState) (acc : List Move),
      mapsInv sol w h s.rowMap s.colMap →
      (∀ m ∈ acc, sol m.x m.y = m.next) →
      ∀ m ∈ (runLoop fuel s acc).movesOf, sol m.x m.y = m.next := by
  intro fuel
  induction fuel with
  | zero =>
    intro s acc _ hacc m hm
    exact hacc m hm
  | succ n ih =>
    intro s acc hInv hacc m hm
    rw [runLoop] at hm
    by_cases hstop : (s.unsolvedRowCount == 0 || s.unsolvedColCount == 0) = true
    · rw [if_pos hstop] at hm
      exact hacc m hm
    · rw [if_neg hstop] at hm
      obtain ⟨hmoves, hnext⟩ := roundStep_inv sol w h s hInv
      cases hr : roundStep s with
      | next s' ys =>
        rw [hr] at hm
        refine ih s' (acc ++ ys) (hnext s' ys hr) ?_ m hm
        intro m' hm'
        rcases List.mem_append.mp hm' with h' | h'
        · exact hacc m' h'
        · rw [hr] at hmoves
          exact hmoves m' h'
      | fail ys b e =>
        rw [hr] at hm
        rw [hr] at hmoves
        rcases List.mem_append.mp hm with h' | h'
        · exact hacc m h'
        · exact hmoves m h'
      | crash ys b =>
        rw [hr] at hm
        rw [hr] at hmoves
        rcases List.mem_append.mp hm with h' | h'
        · exact hacc m h'
        · exact hmoves m h'

theorem initState_inv (rules : Rules) (board : Board) (sol : Nat → Nat → Int)
    (hsol : IsSolutionOf sol rules) :
    mapsInv sol rules.column.length rules.row.length
      (initState rules board).rowMap (initState rules board).colMap := by
  obtain ⟨hcell, hrows, hcols⟩ := hsol
  constructor
  · intro e he
    rw [show (initState rules board).rowMap
      = rules.row.enum.map (fun p => LineState.mk p.1
          (generateLineSolns rules.column.length p.2)) from rfl] at he
    rw [List.mem_map] at he
    obtain ⟨⟨i, r⟩, hp, rfl⟩ := he
    have hget : rules.row.get? i = some r := List.mk_mem_enum_iff_get?.mp hp
    have hilt : i < rules.row.length := (List.mem_enum hp).1
    refine ⟨hilt, ?_⟩
    have hgetD : rules.row.getD i [] = r := by
      rw [List.get?_eq_getElem?] at hget
      simp [List.getD, hget]
    refine generateLineSolns_complete rules.column.length r (rowLineOf sol rules.column.length i)
      (count_length _ _) ?_ ?_
    · intro c hc
      rw [rowLineOf, count] at hc
      rw [List.mem_map] at hc
      obtain ⟨j, _, rfl⟩ := hc
      exact hcell i j
    · rw [← hgetD]
      exact hrows i hilt
  · intro e he
    rw [show (initState rules board).colMap
      = rules.column.enum.map (fun p => LineState.mk p.1
          (generateLineSolns rules.row.length p.2)) from rfl] at he
    rw [List.mem_map] at he
    obtain ⟨⟨i, r⟩, hp, rfl⟩ := he
    have hget : rules.column.get? i = some r := List.mk_mem_enum_iff_get?.mp hp
    have hilt : i < rules.column.length := (List.mem_enum hp).1
    refine ⟨hilt, ?_⟩
    have hgetD : rules.column.getD i [] = r := by
      rw [List.get?_eq_getElem?] at hget
      simp [List.getD, hget]
    refine generateLineSolns_complete rules.row.length r (colLineOf sol rules.row.length i)
      (count_length _ _) ?_ ?_
    · intro c hc
      rw [colLineOf, count] at hc
      rw [List.mem_map] at hc
      obtain ⟨j, _, rfl⟩ := hc
      exact hcell j i
    · rw [← hgetD]
      exact hcols i hilt

/-- C6 (amended): for every Rules input that admits a full-board
solution, every Move the generator ever yields agrees with that
solution at its cell — applying a yielded move never needs to be
undone. -/
theorem generateMoves_sound (rules : Rules) (board : Board)
    (sol : Nat → Nat → Int) (hsol : IsSolutionOf sol rules) :
    ∀ m ∈ (generateMovesRun rules board).movesOf, sol m.x m.y = m.next := by
  unfold generateMovesRun
  exact runLoop_sound sol rules.column.length rules.row.length _ _ []
    (initState_inv rules board sol hsol) (by intro m hm; exact absurd hm (by simp))

/-- Witness for the amended C6: on the solvable 1×1 puzzle whose clue
is a single color-1 cell, the run yields the move (0,0)↦1, which agrees
with the constant-1 coloring (the puzzle's solution). -/
theorem generateMoves_sound_witness :
    (fun (_ _ : Nat) => (1 : Int)) (Move.mk 0 0 1).x (Move.mk 0 0 1).y = (Move.mk 0 0 1).next :=
  generateMoves_sound (Rules.mk [[RuleEntry.mk 1 1]] [[RuleEntry.mk 1 1]])
    (generateEmptyBoardFor (Rules.mk [[RuleEntry.mk 1 1]] [[RuleEntry.mk 1 1]]))
    (fun _ _ => (1 : Int))
    ⟨fun _ _ => by norm_num,
      fun x hx => by
        have hx0 : x = 0 := by simpa using Nat.lt_one_iff.mp (by simpa using hx)
        subst hx0; rfl,
      fun y hy => by
        have hy0 : y = 0 := by simpa using Nat.lt_one_iff.mp (by simpa using hy)
        subst hy0; rfl⟩
    (Move.mk 0 0 1) (by decide)

/-- C6 counterexample: on the contradictory one-cell puzzle (row clue
one tile of color 1, column clue one tile of color 2) the generator
yields the move (0,0)↦1, yet the puzzle has no full-board solution at
all, so that move is consistent with no solution. -/
theorem generateMoves_move_without_solution :
    (generateMovesRun (Rules.mk [[RuleEntry.mk 1 2]] [[RuleEntry.mk 1 1]])
      (generateEmptyBoardFor (Rules.mk [[RuleEntry.mk 1 2]] [[RuleEntry.mk 1 1]]))).movesOf
      = [Move.mk 0 0 1]
    ∧ ¬ ∃ sol : Nat → Nat → Int,
        IsSolutionOf sol (Rules.mk [[RuleEntry.mk 1 2]] [[RuleEntry.mk 1 1]]) := by
  refine ⟨by decide, ?_⟩
  rintro ⟨sol, -, hrows, hcols⟩
  have h1 := hrows 0 (by decide)
  have h2 := hcols 0 (by decide)
  have hc1 : runsOf [sol 0 0] = [((1 : Nat), (1 : Int))] := by
    simpa [rowLineOf, count, ruleRuns] using h1
  have hc2 : runsOf [sol 0 0] = [((1 : Nat), (2 : Int))] := by
    simpa [colLineOf, count, ruleRuns] using h2
  exact absurd (hc1.symm.trans hc2) (by decide)

theorem massOf_nil : massOf [] = 0 := rfl

theorem massOf_cons (e : LineState) (l : List LineState) :
    massOf (e :: l) = e.solns.length + massOf l := rfl

theorem massOf_append (a b : List LineState) :
    massOf (a ++ b) = massOf a + massOf b := by
  simp [massOf]

theorem massOf_reverse (l : List LineState) : massOf l.reverse = massOf l := by
  simp [massOf, List.sum_reverse]

theorem measureOf_eq (s : GenState) :
    measureOf s = massOf s.rowMap + massOf s.colMap := rfl

theorem processLines_mass (pruneFn : Nat → List Line → List Line × Nat)
    (mkErr : Nat → List Nat → SolveErr)
    (hp : ∀ i s, (pruneFn i s).1.length + (pruneFn i s).2 = s.length) :
    ∀ (l kept : List LineState) (r0 p0 : Nat) (res : List LineState) (rF pF : Nat),
    processLines pruneFn mkErr l kept r0 p0 = .ok (res, rF, pF) →
    massOf res + pF = massOf l + massOf kept + p0 := by
  intro l
  induction l with
  | nil =>
    intro kept r0 p0 res rF pF h
    rw [processLines] at h
    injection h with h
    injection h with h1 h2
    injection h2 with h2 h3
    subst h1; subst h3
    rw [massOf_reverse, massOf_nil]
    omega
  | cons e rest ih =>
    intro kept r0 p0 res rF pF h
    rw [processLines] at h
    by_cases hs : isLineSolved e.solns
    · rw [if_pos hs] at h
      have hlen : e.solns.length = 1 := by
        rw [isLineSolved] at hs
        simpa using hs
      have := ih kept (r0 + 1) (p0 + 1) res rF pF h
      rw [massOf_cons, hlen]
      omega
    · rw [if_neg hs] at h
      by_cases hc : isLineConflict e.solns
      · rw [if_pos hc] at h
        exact absurd h (by simp)
      · rw [if_neg hc] at h
        have := ih (LineState.mk e.idx (pruneFn e.idx e.solns).1 :: kept) r0
          (p0 + (pruneFn e.idx e.solns).2) res rF pF h
        rw [massOf_cons] at this
        dsimp only at this
        have hpr := hp e.idx e.solns
        rw [massOf_cons]
        omega

theorem processLines_idxs (pruneFn : Nat → List Line → List Line × Nat)
    (mkErr : Nat → List Nat → SolveErr) :
    ∀ (l kept : List LineState) (r0 p0 : Nat) (res : List LineState) (rF pF : Nat),
    processLines pruneFn mkErr l kept r0 p0 = .ok (res, rF, pF) →
    List.Sublist (idxsOf res) (idxsOf kept.reverse ++ idxsOf l) := by
  intro l
  induction l with
  | nil =>
    intro kept r0 p0 res rF pF h
    rw [processLines] at h
    injection h with h
    injection h with h1 h2
    subst h1
    simp [idxsOf]
  | cons e rest ih =>
    intro kept r0 p0 res rF pF h
    rw [processLines] at h
    by_cases hs : isLineSolved e.solns
    · rw [if_pos hs] at h
      have := ih kept (r0 + 1) (p0 + 1) res rF pF h
      refine this.trans ?_
      refine List.Sublist.append_left ?_ _
      exact List.sublist_cons_self _ _
    · rw [if_neg hs] at h
      by_cases hc : isLineConflict e.solns
      · rw [if_pos hc] at h
        exact absurd h (by simp)
      · rw [if_neg hc] at h
        have := ih (LineState.mk e.idx (pruneFn e.idx e.solns).1 :: kept) r0
          (p0 + (pruneFn e.idx e.solns).2) res rF pF h
        have heq : idxsOf (LineState.mk e.idx (pruneFn e.idx e.solns).1 :: kept).reverse
            ++ idxsOf rest = idxsOf kept.reverse ++ idxsOf (e :: rest) := by
          simp [idxsOf]
        rw [heq] at this
        exact this

theorem pruneByColors_len (solns : List Line) (ac : List (Option Int)) (i : Nat) :
    (pruneByColors solns ac i).1.length + (pruneByColors solns ac i).2 = solns.length := by
  have := List.length_filter_le (fun soln => ac.contains (soln.get? i)) solns
  simp only [pruneByColors]
  omega

theorem pruneByMoves_len (dim : Move → Nat) (solns : List Line) (moves : List Move) :
    (pruneByMoves dim solns moves).1.length + (pruneByMoves dim solns moves).2
      = solns.length := by
  have := List.length_filter_le (fun soln =>
    moves.all (fun m => soln.get? (dim m) == some m.next)) solns
  simp only [pruneByMoves]
  omega

theorem updateSolns_idxs (m : List LineState) (x : Nat) (s : List Line) :
    idxsOf (updateSolns m x s) = idxsOf m := by
  simp only [idxsOf, updateSolns, List.map_map]
  apply List.map_congr_left
  intro e _
  by_cases hx : e.idx = x
  · simp [hx]
  · simp [hx]

theorem updateSolns_not_mem (m : List LineState) (x : Nat) (s : List Line)
    (h : x ∉ idxsOf m) : updateSolns m x s = m := by
  induction m with
  | nil => rfl
  | cons e rest ih =>
    simp only [idxsOf, List.map_cons, List.mem_cons, not_or] at h
    simp only [updateSolns, List.map_cons]
    rw [if_neg (by simpa using fun he => h.1 he.symm)]
    have := ih (by simpa [idxsOf] using h.2)
    simp only [updateSolns] at this
    rw [this]

theorem updateSolns_mass (m : List LineState) (x : Nat) (s : List Line)
    (re : LineState) (hnd : (idxsOf m).Nodup)
    (hf : m.find? (fun e => e.idx == x) = some re) :
    massOf (updateSolns m x s) + re.solns.length = massOf m + s.length := by
  induction m with
  | nil => simp [List.find?] at hf
  | cons e rest ih =>
    rw [List.find?] at hf
    simp only [idxsOf, List.map_cons, List.nodup_cons] at hnd
    by_cases hx : e.idx == x
    · rw [hx] at hf
      injection hf with hf
      subst hf
      have hxv : e.idx = x := by simpa using hx
      have hnm : x ∉ idxsOf rest := by rw [← hxv]; exact hnd.1
      simp only [updateSolns, List.map_cons, if_pos hx]
      have hrest := updateSolns_not_mem rest x s hnm
      simp only [updateSolns] at hrest
      rw [hrest]
      have hmk : massOf (LineState.mk e.idx s :: rest) = s.length + massOf rest := rfl
      rw [hmk, massOf_cons]
      omega
    · simp only [Bool.not_eq_true] at hx
      rw [hx] at hf
      have := ih hnd.2 hf
      simp only [updateSolns, List.map_cons, if_neg (by simp [hx] : ¬(e.idx == x) = true)]
      simp only [updateSolns] at this
      rw [massOf_cons, massOf_cons]
      omega

theorem arcCell_mass (x y : Nat) (rm cm : List LineState) (p : Nat)
    (rm' cm' : List LineState) (p' : Nat)
    (hndr : (idxsOf rm).Nodup) (hndc : (idxsOf cm).Nodup)
    (h : arcCell x y rm cm p = some (rm', cm', p')) :
    idxsOf rm' = idxsOf rm ∧ idxsOf cm' = idxsOf cm ∧
    massOf rm' + massOf cm' + p' = massOf rm + massOf cm + p := by
  rw [arcCell] at h
  split at h
  · rename_i ce re hce hre
    injection h with h
    injection h with h1 h
    injection h with h2 h3
    subst h1; subst h2; subst h3
    refine ⟨updateSolns_idxs _ _ _, updateSolns_idxs _ _ _, ?_⟩
    have hrm := updateSolns_mass rm x
      (pruneByColors re.solns
        (setIntersection (getPossibleColors ce.solns x) (getPossibleColors re.solns y)) y).1
      re hndr hre
    have hcm := updateSolns_mass cm y
      (pruneByColors ce.solns
        (setIntersection (getPossibleColors ce.solns x) (getPossibleColors re.solns y)) x).1
      ce hndc hce
    have hl1 := pruneByColors_len re.solns
      (setIntersection (getPossibleColors ce.solns x) (getPossibleColors re.solns y)) y
    have hl2 := pruneByColors_len ce.solns
      (setIntersection (getPossibleColors ce.solns x) (getPossibleColors re.solns y)) x
    omega
  · exact absurd h (by simp)

theorem arcRow_mass (x : Nat) : ∀ (ys : List Nat)
    (st st' : List LineState × List LineState × Nat),
    (idxsOf st.1).Nodup → (idxsOf st.2.1).Nodup →
    arcRow x ys st = some st' →
    idxsOf st'.1 = idxsOf st.1 ∧ idxsOf st'.2.1 = idxsOf st.2.1 ∧
    massOf st'.1 + massOf st'.2.1 + st'.2.2 = massOf st.1 + massOf st.2.1 + st.2.2 := by
  intro ys
  induction ys with
  | nil =>
    intro st st' _ _ h
    rw [arcRow] at h
    injection h with h
    subst h
    exact ⟨rfl, rfl, rfl⟩
  | cons y ys ih =>
    intro st st' hndr hndc h
    rw [arcRow] at h
    split at h
    · exact absurd h (by simp)
    · rename_i st2 hcell
      have h1 := arcCell_mass x y st.1 st.2.1 st.2.2 st2.1 st2.2.1 st2.2.2 hndr hndc
        (by rw [hcell])
      have h2 := ih st2 st' (by rw [h1.1]; exact hndr) (by rw [h1.2.1]; exact hndc) h
      refine ⟨h2.1.trans h1.1, h2.2.1.trans h1.2.1, ?_⟩
      have := h1.2.2
      have := h2.2.2
      omega

theorem arcAll_mass : ∀ (xs ys : List Nat)
    (st st' : List LineState × List LineState × Nat),
    (idxsOf st.1).Nodup → (idxsOf st.2.1).Nodup →
    arcAll xs ys st = some st' →
    idxsOf st'.1 = idxsOf st.1 ∧ idxsOf st'.2.1 = idxsOf st.2.1 ∧
    massOf st'.1 + massOf st'.2.1 + st'.2.2 = massOf st.1 + massOf st.2.1 + st.2.2 := by
  intro xs
  induction xs with
  | nil =>
    intro ys st st' _ _ h
    rw [arcAll] at h
    injection h with h
    subst h
    exact ⟨rfl, rfl, rfl⟩
  | cons x xs ih =>
    intro ys st st' hndr hndc h
    rw [arcAll] at h
    split at h
    · exact absurd h (by simp)
    · rename_i st2 hrow
      have h1 := arcRow_mass x ys st st2 hndr hndc hrow
      have h2 := ih ys st2 st' (by rw [h1.1]; exact hndr) (by rw [h1.2.1]; exact hndc) h
      refine ⟨h2.1.trans h1.1, h2.2.1.trans h1.2.1, ?_⟩
      have := h1.2.2
      have := h2.2.2
      omega

theorem roundStep_next_decreases (s : GenState)
    (hndr : (idxsOf s.rowMap).Nodup) (hndc : (idxsOf s.colMap).Nodup) :
    ∀ s' ys, roundStep s = .next s' ys →
      measureOf s' < measureOf s ∧
      (idxsOf s'.rowMap).Nodup ∧ (idxsOf s'.colMap).Nodup := by
  unfold roundStep
  dsimp only
  split
  · intro s' ys heq
    exact absurd heq (by simp)
  · rename_i rowMoves hrm
    split
    · intro s' ys heq
      exact absurd heq (by simp)
    · rename_i colMoves hcm
      split
      · intro s' ys heq
        exact absurd heq (by simp)
      · split
        · intro s' ys heq
          exact absurd heq (by simp)
        · rename_i newRows rowRetired pruned1 hpr
          split
          · intro s' ys heq
            exact absurd heq (by simp)
          · rename_i newCols colRetired pruned2 hpc
            have hm1 := processLines_mass _ _
              (fun i so => pruneByMoves_len (fun m => m.y) so (movesForRow i colMoves))
              s.rowMap [] 0 0 newRows rowRetired pruned1 hpr
            have hm2 := processLines_mass _ _
              (fun i so => pruneByMoves_len (fun m => m.x) so (movesForCol i rowMoves))
              s.colMap [] 0 0 newCols colRetired pruned2 hpc
            have hi1 := processLines_idxs _ _ s.rowMap [] 0 0 newRows rowRetired pruned1 hpr
            have hi2 := processLines_idxs _ _ s.colMap [] 0 0 newCols colRetired pruned2 hpc
            rw [massOf_nil] at hm1 hm2
            have hnd1 : (idxsOf newRows).Nodup :=
              List.Nodup.sublist (by simpa [idxsOf] using hi1) hndr
            have hnd2 : (idxsOf newCols).Nodup :=
              List.Nodup.sublist (by simpa [idxsOf] using hi2) hndc
            split
            · rename_i hpos
              intro s' ys heq
              injection heq with h1 h2
              rw [← h1]
              refine ⟨?_, hnd1, hnd2⟩
              rw [measureOf_eq, measureOf_eq]
              dsimp only
              omega
            · rename_i hnpos
              split
              · intro s' ys heq
                exact absurd heq (by simp)
              · rename_i rm2 cm2 arcPruned harc
                have harcm := arcAll_mass _ _ (newRows, newCols, 0)
                  (rm2, cm2, arcPruned) hnd1 hnd2 harc
                split
                · intro s' ys heq
                  exact absurd heq (by simp)
                · rename_i hap
                  intro s' ys heq
                  injection heq with h1 h2
                  rw [← h1]
                  have hapne : arcPruned ≠ 0 := by simpa using hap
                  refine ⟨?_, ?_, ?_⟩
                  · rw [measureOf_eq, measureOf_eq]
                    dsimp only
                    have := harcm.2.2
                    dsimp only [massOf_nil] at this
                    omega
                  · dsimp only
                    rw [show idxsOf rm2 = idxsOf newRows from harcm.1]
                    exact hnd1
                  · dsimp only
                    rw [show idxsOf cm2 = idxsOf newCols from harcm.2.1]
                    exact hnd2

theorem runLoop_no_ranOut : ∀ (fuel : Nat) (s : GenState) (acc : List Move),
    (idxsOf s.rowMap).Nodup → (idxsOf s.colMap).Nodup →
    measureOf s < fuel → ((runLoop fuel s acc).ranOut = false) := by
  intro fuel
  induction fuel with
  | zero =>
    intro s acc _ _ hlt
    exact absurd hlt (by omega)
  | succ n ih =>
    intro s acc hndr hndc hlt
    rw [runLoop]
    split
    · rfl
    · split
      · rename_i s' ys heq
        have hd := roundStep_next_decreases s hndr hndc s' ys heq
        exact ih s' (acc ++ ys) hd.2.1 hd.2.2 (by omega)
      · rfl
      · rfl

theorem initState_nodup (rules : Rules) (board : Board) :
    (idxsOf (initState rules board).rowMap).Nodup ∧
    (idxsOf (initState rules board).colMap).Nodup := by
  constructor
  · show (idxsOf (rules.row.enum.map (fun p =>
      LineState.mk p.1 (generateLineSolns rules.column.length p.2)))).Nodup
    rw [show idxsOf (rules.row.enum.map (fun p =>
        LineState.mk p.1 (generateLineSolns rules.column.length p.2)))
      = rules.row.enum.map Prod.fst by
        simp only [idxsOf, List.map_map]
        exact List.map_congr_left (fun p _ => rfl)]
    rw [List.enum_map_fst]
    exact List.nodup_range _
  · show (idxsOf (rules.column.enum.map (fun p =>
      LineState.mk p.1 (generateLineSolns rules.row.length p.2)))).Nodup
    rw [show idxsOf (rules.column.enum.map (fun p =>
        LineState.mk p.1 (generateLineSolns rules.row.length p.2)))
      = rules.column.enum.map Prod.fst by
        simp only [idxsOf, List.map_map]
        exact List.map_congr_left (fun p _ => rfl)]
    rw [List.enum_map_fst]
    exact List.nodup_range _

/-- C7 (amended): the solver loop always terminates, within a number of
rounds bounded by the strictly decreasing total candidate mass: every
round that continues strictly decreases the sum of candidate-set sizes
(each retire removes a singleton set, each prune removes candidates, and
a round with zero prunes continues only when the arc-consistency pass
pruned something), so fuel equal to the initial mass plus one is never
exhausted; the run then ends solved, with the structured Unsolvable
error, or with the (undocumented) TypeError crash. -/
theorem generateMoves_loop_terminates (rules : Rules) (board : Board) :
    (generateMovesRun rules board).ranOut = false := by
  unfold generateMovesRun
  exact runLoop_no_ranOut _ _ []
    (initState_nodup rules board).1 (initState_nodup rules board).2 (by omega)

/-- C7 counterexample to the claimed outcome disjunction "solved or
Unsolvable": on the unfit clue (three columns, single row clue demanding
2+2 tiles in a line of length 3) the loop terminates by the modelled
TypeError crash — neither solved=true nor a SolveError. -/
theorem generateMoves_run_crashes :
    generateMovesRun (Rules.mk [[], [], []] [[RuleEntry.mk 2 1, RuleEntry.mk 2 1]])
      (generateEmptyBoardFor (Rules.mk [[], [], []] [[RuleEntry.mk 2 1, RuleEntry.mk 2 1]]))
      = RunResult.crashed [] [[0], [0], [0]] := by
  decide
